import Mathlib

/-!
# http2postman: export of `.http` request files to a Postman collection, and import back

A shallow embedding of `cmd/export.go` and `cmd/import.go`.

* Go strings are modelled as lists of Unicode code points (`Str`); the program only
  ever splits on ASCII separators, so on valid UTF-8 text the byte-wise operations of
  the `strings` package agree with the code-point-wise ones used here.
* Dynamic values (`interface{}` obtained from `encoding/json`) are modelled by `JVal`.
* The file system is modelled by a log of the operations performed, together with an
  environment that decides which operations succeed.
* Paths follow the Unix flavour of `path/filepath` (separator `/`, no volume names).
-/

namespace Http2Postman

/-- Go strings, as lists of code points. -/
abbrev Str := List Char

/-! ## Dynamic JSON values -/

/-- The values `encoding/json` stores into an `interface{}`: `nil`, `bool`, `float64`
(kept as an uninterpreted bit pattern: the program never computes with numbers),
`string`, `[]interface{}` and `map[string]interface{}` (an association list; the first
binding of a key is the one that counts). -/
inductive JVal where
  | null
  | bool (b : Bool)
  | num (bits : Nat)
  | str (s : Str)
  | arr (xs : List JVal)
  | obj (kvs : List (Str × JVal))

/-- A `map[string]interface{}`. -/
abbrev Obj := List (Str × JVal)

/-- Map indexing `m[k]`; `none` when the key is absent. -/
def lookup (k : Str) : Obj → Option JVal
  | [] => none
  | (k', v) :: rest => if k' = k then some v else lookup k rest

/-- The comma-ok assertion `v.(string)` with the result discarded on failure, that is
`s, _ := m[k].(string)`: the zero value `""` unless the value is a string. -/
def asString : Option JVal → Str
  | some (.str s) => s
  | _ => []

/-- The assertion `v.(map[string]interface{})`. -/
def asObj : Option JVal → Option Obj
  | some (.obj m) => some m
  | _ => none

/-- The assertion `v.([]interface{})`. -/
def asArr : Option JVal → Option (List JVal)
  | some (.arr xs) => some xs
  | _ => none

/-- Parts of the Go standard library that the program calls and whose tables are not
part of the program: the Unicode tables behind `unicode.IsLetter`, `unicode.IsDigit`,
`unicode.ToTitle` and `unicode.ToLower` (consulted only above U+007F; the ASCII range is
written out below), and the text `fmt` prints under the verb `%s` for a dynamic value
that is neither a string nor `nil`. -/
structure Lib where
  isLetter : Char → Bool
  isDigit : Char → Bool
  toTitle : Char → Char
  toLower : Char → Char
  sprint : JVal → Str

/-! ## Package `strings` -/

/-- The function `unicode.IsSpace`. -/
def isSpace (c : Char) : Bool :=
  let n := c.toNat
  decide ((0x09 ≤ n ∧ n ≤ 0x0D) ∨ n = 0x20 ∨ n = 0x85 ∨ n = 0xA0 ∨ n = 0x1680 ∨
    (0x2000 ≤ n ∧ n ≤ 0x200A) ∨ n = 0x2028 ∨ n = 0x2029 ∨ n = 0x202F ∨ n = 0x205F ∨
    n = 0x3000)

/-- The function `strings.TrimSpace`. -/
def trimSpace (s : Str) : Str :=
  ((s.dropWhile isSpace).reverse.dropWhile isSpace).reverse

/-- The function `strings.TrimPrefix`. -/
def trimPrefix (s pre : Str) : Str :=
  if pre.isPrefixOf s then s.drop pre.length else s

/-- The function `strings.Join`. -/
def join (elems : List Str) (sep : Str) : Str :=
  sep.intercalate elems

/-- The function `strings.ReplaceAll` for a one-character `old` and `new`. -/
def replaceAll (s : Str) (old new : Char) : Str :=
  s.map (fun c => if c = old then new else c)

/-- Scanning loop of `strings.Split`: `skip` counts the characters of a matched separator
still to be passed over, `cur` is the current piece (reversed). -/
def splitGo (sep : Str) : Str → Nat → Str → List Str
  | [], _, cur => [cur.reverse]
  | _ :: cs, skip + 1, cur => splitGo sep cs skip cur
  | c :: cs, 0, cur =>
    if sep.isPrefixOf (c :: cs) then cur.reverse :: splitGo sep cs (sep.length - 1) []
    else splitGo sep cs 0 (c :: cur)

/-- The function `strings.Split` for a non-empty separator: the pieces between the
non-overlapping occurrences of `sep`, found from the left. -/
def split (s sep : Str) : List Str :=
  splitGo sep s 0 []

/-- The text before and after the first occurrence of `sep` in the string. -/
def cut (sep : Str) : Str → Option (Str × Str)
  | [] => none
  | c :: cs =>
    if sep.isPrefixOf (c :: cs) then some ([], (c :: cs).drop sep.length)
    else (cut sep cs).map (fun p => (c :: p.1, p.2))

/-- The call `strings.SplitN(s, sep, 2)` for a non-empty separator. -/
def splitN2 (s sep : Str) : List Str :=
  match cut sep s with
  | some (a, b) => [a, b]
  | none => [s]

/-- The function `unicode.ToTitle`. -/
def toTitle (L : Lib) (r : Char) : Char :=
  if r.toNat ≤ 0x7F then
    if 'a'.toNat ≤ r.toNat ∧ r.toNat ≤ 'z'.toNat then Char.ofNat (r.toNat - 32) else r
  else L.toTitle r

/-- The function `unicode.ToLower`. -/
def toLowerRune (L : Lib) (r : Char) : Char :=
  if r.toNat ≤ 0x7F then
    if 'A'.toNat ≤ r.toNat ∧ r.toNat ≤ 'Z'.toNat then Char.ofNat (r.toNat + 32) else r
  else L.toLower r

/-- The function `strings.ToLower`. -/
def toLower (L : Lib) (s : Str) : Str :=
  s.map (toLowerRune L)

/-- The helper `isSeparator` of package `strings`, used by `strings.Title`. -/
def isSeparator (L : Lib) (r : Char) : Bool :=
  if r.toNat ≤ 0x7F then
    if '0'.toNat ≤ r.toNat ∧ r.toNat ≤ '9'.toNat then false
    else if 'a'.toNat ≤ r.toNat ∧ r.toNat ≤ 'z'.toNat then false
    else if 'A'.toNat ≤ r.toNat ∧ r.toNat ≤ 'Z'.toNat then false
    else if r = '_' then false
    else true
  else if L.isLetter r || L.isDigit r then false
  else isSpace r

/-- The mapping loop of `strings.Title`; `prev` is the previous code point. -/
def titleGo (L : Lib) : Char → Str → Str
  | _, [] => []
  | prev, r :: rs => (if isSeparator L prev then toTitle L r else r) :: titleGo L r rs

/-- The function `strings.Title`. -/
def title (L : Lib) (s : Str) : Str :=
  titleGo L ' ' s

/-- The verb `%s` of `fmt` applied to a map entry `m[k]`. -/
def sprintS (L : Lib) : Option JVal → Str
  | some (.str s) => s
  | some .null => "%!s(<nil>)".toList
  | none => "%!s(<nil>)".toList
  | some v => L.sprint v

/-! ## Package `path/filepath` (Unix) -/

/-- The component pass of `filepath.Clean`: empty and `.` components are dropped, a `..`
removes the component before it unless that is itself `..` or there is none (then it is
kept in a relative path and dropped at the root). `out` is reversed. -/
def cleanGo (rooted : Bool) : List Str → List Str → List Str
  | [], out => out.reverse
  | c :: cs, out =>
    if c = [] ∨ c = ".".toList then cleanGo rooted cs out
    else if c = "..".toList then
      match out with
      | top :: out' =>
        if top = "..".toList then cleanGo rooted cs (c :: out) else cleanGo rooted cs out'
      | [] => if rooted then cleanGo rooted cs [] else cleanGo rooted cs [c]
    else cleanGo rooted cs (c :: out)

/-- The function `filepath.Clean`. -/
def clean (path : Str) : Str :=
  let rooted := path.head? = some '/'
  let body := join (cleanGo rooted (split path "/".toList) []) "/".toList
  if rooted then '/' :: body else if body = [] then ".".toList else body

/-- The function `filepath.Join`. -/
def filepathJoin (elem : List Str) : Str :=
  match elem.dropWhile (fun e => e = []) with
  | [] => []
  | rest => clean (join rest "/".toList)

/-- The function `filepath.Dir`. -/
def filepathDir (path : Str) : Str :=
  clean (path.reverse.dropWhile (fun c => c ≠ '/')).reverse

/-- The function `filepath.Base`. -/
def filepathBase (path : Str) : Str :=
  if path = [] then ".".toList
  else
    let stripped := (path.reverse.dropWhile (fun c => c = '/'))
    let last := (stripped.takeWhile (fun c => c ≠ '/')).reverse
    if last = [] then "/".toList else last

/-- The longest common prefix of two component lists removed from both. -/
def stripCommon : List Str → List Str → List Str × List Str
  | b :: bs, t :: ts => if b = t then stripCommon bs ts else (b :: bs, t :: ts)
  | bs, ts => (bs, ts)

/-- The function `filepath.Rel`; `none` is its error. -/
def filepathRel (basepath targpath : Str) : Option Str :=
  let base := clean basepath
  let targ := clean targpath
  if targ = base then some ".".toList
  else
    let base := if base = ".".toList then [] else base
    if (base.head? = some '/') ≠ (targ.head? = some '/') then none
    else
      let comps := fun (p : Str) => (split p "/".toList).filter (fun c => c ≠ [])
      match stripCommon (comps base) (comps targ) with
      | (b :: bs, t :: ts) =>
        if b = "..".toList then none
        else some (join ((b :: bs).map (fun _ => "..".toList) ++ t :: ts) "/".toList)
      | (b :: bs, []) => some (join ((b :: bs).map (fun _ => "..".toList)) "/".toList)
      | ([], ts) => some (join ts "/".toList)

/-! ## `cmd/export.go` -/

/-- One entry of the `header` list of an exported request: the map
`{"key": ..., "value": ...}`. -/
structure Header where
  key : Str
  value : Str
deriving DecidableEq, Repr

/-- The `request` map of an exported item. `body` is the `raw` text of the map
`{"mode": "raw", "raw": ...}`, and `none` when the map has no `body` key. -/
structure Request where
  method : Str
  url : Str
  header : List Header
  body : Option Str
deriving DecidableEq, Repr

/-- The map `{"name": ..., "request": ...}` that `processHTTPFile` builds for a block. -/
structure Item where
  name : Str
  request : Request
deriving DecidableEq, Repr

/-- A group of the collection tree built by `addToCollection`: the map
`{"name": ..., "item": ...}`. A `container` is a group made for a directory
path segment, its `item` is a `[]interface{}` of groups; a `file` group is the one
appended for a request file, its `item` is the `[]map[string]interface{}` returned by
`processHTTPFile`. -/
inductive RequestGroup where
  | container (name : Str) (item : List RequestGroup)
  | file (name : Str) (item : List Item)

/-- The `name` entry of a group. -/
def RequestGroup.name : RequestGroup → Str
  | .container n _ => n
  | .file n _ => n

/-- The function `formatGroupName`. -/
def formatGroupName (L : Lib) (name : Str) : Str :=
  let name := replaceAll name '_' ' '
  let name := replaceAll name '-' ' '
  title L name

/-- The loop of `processHeadersAndBody` with its three variables `headersEnded`,
`headers` and `bodyLines`. A line without a colon is reported on standard output and
dropped. -/
def processHeadersAndBodyLoop :
    List Str → Bool → List Header → List Str → List Header × List Str
  | [], _, headers, bodyLines => (headers, bodyLines)
  | line :: rest, headersEnded, headers, bodyLines =>
    let line := trimSpace line
    if line = [] then processHeadersAndBodyLoop rest true headers bodyLines
    else if headersEnded then
      processHeadersAndBodyLoop rest headersEnded headers (bodyLines ++ [line])
    else
      match splitN2 line ":".toList with
      | [k, v] =>
        processHeadersAndBodyLoop rest headersEnded
          (headers ++ [⟨trimSpace k, trimSpace v⟩]) bodyLines
      | _ => processHeadersAndBodyLoop rest headersEnded headers bodyLines

/-- The function `processHeadersAndBody`. -/
def processHeadersAndBody (lines : List Str) : List Header × Str :=
  let r := processHeadersAndBodyLoop lines false [] []
  (r.1, join r.2 "\n".toList)

/-- What one pass of the loop of `processHTTPFile` does with a section: `skipped` is the
silent `continue`, the two `invalid` outcomes print a diagnostic and continue, `item` is
appended to the result. -/
inductive SectionResult where
  | skipped
  | invalidRequestFormat
  | invalidURLLine
  | item (it : Item)
deriving DecidableEq, Repr

/-- The body of the loop of `processHTTPFile`, for one section. -/
def processSection (sec : Str) : SectionResult :=
  let lines := split (trimSpace sec) "\n".toList
  match lines with
  | [] => .skipped
  | [_] => .invalidRequestFormat
  | line0 :: line1 :: rest =>
    match splitN2 line1 " ".toList with
    | [m, u] =>
      let hb := processHeadersAndBody rest
      .item
        { name := trimPrefix line0 "# ".toList
          request :=
            { method := m
              url := u
              header := hb.1
              body := if hb.2 ≠ [] then some hb.2 else none } }
    | _ => .invalidURLLine

/-- The items appended by the loop of `processHTTPFile` over the given sections. -/
def collectItems : List Str → List Item
  | [] => []
  | sec :: rest =>
    match processSection sec with
    | .item it => it :: collectItems rest
    | _ => collectItems rest

/-- The function `processHTTPFile`, on the content read from the file. -/
def processHTTPFile (content : Str) : List Item :=
  collectItems (split content "###".toList)

/-- The inner loop of `addToCollection`: `currentItems` cut at the first group whose
name is `formattedPart`. -/
def findGroup (formattedPart : Str) :
    List RequestGroup → Option (List RequestGroup × RequestGroup × List RequestGroup)
  | [] => none
  | g :: gs =>
    if g.name = formattedPart then some ([], g, gs)
    else (findGroup formattedPart gs).map (fun r => (g :: r.1, r.2.1, r.2.2))

/-- The function `addToCollection`, on the `item` list of the collection. The walk over
`dirParts` descends into the first group with the formatted name, or appends a new
container; at the end the file group is appended. `none` is the run-time panic of the
assertion `group["item"].([]interface{})` on a file group, whose `item` is a
`[]map[string]interface{}`. The maps are updated in place in the source; here the
updated list is returned. -/
def addToCollection (L : Lib) (currentItems : List RequestGroup) :
    List Str → Str → List Item → Option (List RequestGroup)
  | [], groupName, items => some (currentItems ++ [RequestGroup.file groupName items])
  | part :: rest, groupName, items =>
    let formattedPart := formatGroupName L part
    match findGroup formattedPart currentItems with
    | some (before, RequestGroup.container n sub, after) =>
      (addToCollection L sub rest groupName items).map
        (fun sub' => before ++ RequestGroup.container n sub' :: after)
    | some (_, RequestGroup.file _ _, _) => none
    | none =>
      (addToCollection L [] rest groupName items).map
        (fun sub' => currentItems ++ [RequestGroup.container formattedPart sub'])

/-- The callback that `processDirectory` hands to `filepath.Walk`, for a regular file
`path` with suffix `.http` and content `content`, under the root `dir`. The outer `none`
is a panic, `some none` is the error of `filepath.Rel`. -/
def walkFile (L : Lib) (dir path content : Str) (collection : List RequestGroup) :
    Option (Option (List RequestGroup)) :=
  let items := processHTTPFile content
  match filepathRel dir path with
  | none => some none
  | some relativePath =>
    let dirParts := split (filepathDir relativePath) "/".toList
    let groupName := formatGroupName L (filepathBase path)
    (addToCollection L collection dirParts groupName items).map some

/-- One call of `addToCollection`: `dirParts`, `groupName`, `items`. -/
structure Call where
  dirParts : List Str
  groupName : Str
  items : List Item

/-- A sequence of calls of `addToCollection` on the same collection, as made by the walk
of `processDirectory`. -/
def addAll (L : Lib) : List Call → List RequestGroup → Option (List RequestGroup)
  | [], collection => some collection
  | c :: cs, collection =>
    match addToCollection L collection c.dirParts c.groupName c.items with
    | none => none
    | some collection' => addAll L cs collection'

/-- The JSON image of an exported header list: a nil slice is written as `null`. -/
def headersJSON : List Header → JVal
  | [] => .null
  | hs => .arr (hs.map (fun h => .obj [("key".toList, .str h.key), ("value".toList, .str h.value)]))

/-- The JSON image of an exported request, as `json.MarshalIndent` writes it and
`json.Unmarshal` reads it back. -/
def Request.toJSON (r : Request) : JVal :=
  .obj ([("method".toList, JVal.str r.method), ("url".toList, JVal.str r.url),
      ("header".toList, headersJSON r.header)] ++
    match r.body with
    | some raw => [("body".toList, JVal.obj [("mode".toList, .str "raw".toList), ("raw".toList, .str raw)])]
    | none => [])

/-- The JSON image of an exported item. -/
def Item.toJSON (it : Item) : Obj :=
  [("name".toList, .str it.name), ("request".toList, it.request.toJSON)]

/-! ## `cmd/import.go` -/

/-- The two file-system calls of the importer: `os.MkdirAll(path, os.ModePerm)` and
`os.WriteFile(name, data, 0644)`. -/
inductive FsOp where
  | mkdirAll (path : Str)
  | writeFile (name : Str) (data : Str)
deriving DecidableEq, Repr

/-- The errors `createHTTPFiles` can return: the one made by `createHTTPRequestFile` for an
item without a `request` map, and the failure of a file-system call. -/
inductive ImportError where
  | invalidRequestFormat
  | io (op : FsOp)
deriving DecidableEq, Repr

/-- The environment: given the calls that succeeded so far, whether the next one
succeeds. -/
abbrev Env := List FsOp → FsOp → Bool

/-- A file-system call: logged when it succeeds, an error otherwise. -/
def perform (env : Env) (op : FsOp) (log : List FsOp) : List FsOp × Option ImportError :=
  if env log op then (log ++ [op], none) else (log, some (.io op))

/-- The function `formatFileName`. -/
def formatFileName (L : Lib) (name : Str) : Str :=
  let name := replaceAll name ' ' '_'
  let name := replaceAll name '/' '_'
  toLower L name

/-- The function `extractURL`, on the entry `request["url"]`. -/
def extractURL (url : Option JVal) : Str × Bool :=
  match asObj url with
  | some urlMap =>
    match lookup "raw".toList urlMap with
    | some (.str raw) => (raw, true)
    | _ => ([], false)
  | none => ([], false)

/-- The loop of `extractBearerToken` over the `bearer` list. -/
def findToken : List JVal → Option Str
  | [] => none
  | .obj bMap :: rest =>
    match lookup "key".toList bMap with
    | some (.str key) =>
      if key = "token".toList then
        match lookup "value".toList bMap with
        | some (.str value) => some value
        | _ => findToken rest
      else findToken rest
    | _ => findToken rest
  | _ :: rest => findToken rest

/-- The function `extractBearerToken`; `none` stands for `("", false)`. -/
def extractBearerToken (auth : Obj) : Option Str :=
  match lookup "type".toList auth with
  | some (.str authType) =>
    if authType = "bearer".toList then
      match asArr (lookup "bearer".toList auth) with
      | some bearerList => findToken bearerList
      | none => none
    else none
  | _ => none

/-- The header list of `createHTTPRequestFile` after the parent auth has been added:
the bearer header is appended when the request has no `auth` key, a parent auth is given
and it holds a token. -/
def headersWithAuth (request : Obj) (parentAuth : Option Obj) : List JVal :=
  let headers := (asArr (lookup "header".toList request)).getD []
  match lookup "auth".toList request, parentAuth with
  | none, some auth =>
    match extractBearerToken auth with
    | some bearerToken =>
      headers ++ [.obj [("key".toList, .str "Authorization".toList),
        ("value".toList, .str ("Bearer ".toList ++ bearerToken))]]
    | none => headers
  | _, _ => headers

/-- The loop of `createHTTPRequestFile` that builds `headerLines`. -/
def headerLines : List JVal → List Str
  | [] => []
  | .obj headerMap :: rest =>
    (asString (lookup "key".toList headerMap) ++ ": ".toList ++
      asString (lookup "value".toList headerMap)) :: headerLines rest
  | _ :: rest => headerLines rest

/-- The loop of `createHTTPRequestFile` over the `formdata` fields. -/
def formDataContent : List JVal → Str
  | [] => []
  | .obj fieldMap :: rest =>
    let key := asString (lookup "key".toList fieldMap)
    let value := asString (lookup "value".toList fieldMap)
    (if key ≠ [] then key ++ ": ".toList ++ value ++ "\n".toList else []) ++
      formDataContent rest
  | _ :: rest => formDataContent rest

/-- The variable `bodyContent` of `createHTTPRequestFile`. -/
def bodyContent (request : Obj) : Str :=
  match asObj (lookup "body".toList request) with
  | some body =>
    match lookup "mode".toList body with
    | some (.str mode) =>
      if mode = "raw".toList then asString (lookup "raw".toList body)
      else if mode = "formdata".toList then
        formDataContent ((asArr (lookup "formdata".toList body)).getD [])
      else []
    | _ => []
  | none => []

/-- The variable `content` of `createHTTPRequestFile`: the text written to the file,
`fmt.Sprintf("# %s\n%s %s\n%s\n\n%s\n", ...)`. -/
def requestContent (L : Lib) (item request : Obj) (parentAuth : Option Obj) : Str :=
  "# ".toList ++ sprintS L (lookup "name".toList item) ++ "\n".toList ++
    asString (lookup "method".toList request) ++ " ".toList ++
    (extractURL (lookup "url".toList request)).1 ++ "\n".toList ++
    join (headerLines (headersWithAuth request parentAuth)) "\n".toList ++ "\n\n".toList ++
    bodyContent request ++ "\n".toList

/-- The function `createHTTPRequestFile`. -/
def createHTTPRequestFile (L : Lib) (env : Env) (filePath : Str) (item : Obj)
    (parentAuth : Option Obj) (log : List FsOp) : List FsOp × Option ImportError :=
  match asObj (lookup "request".toList item) with
  | none => (log, some .invalidRequestFormat)
  | some request =>
    let content := requestContent L item request parentAuth
    let fileName := filepathJoin [filePath ++ ".http".toList]
    perform env (.writeFile fileName content) log

/-- The idiom `if err := ...; err != nil { return err }`: the rest `k` runs only when
the step returned no error. -/
def andThen (r : List FsOp × Option ImportError)
    (k : List FsOp → List FsOp × Option ImportError) : List FsOp × Option ImportError :=
  match r with
  | (log, some err) => (log, some err)
  | (log, none) => k log

/-- The function `createHTTPFiles`. The log of file-system calls made so far is passed
along and returned with the error, if any. -/
def createHTTPFiles (L : Lib) (env : Env) (items : List JVal) (basePath : Str)
    (parentAuth : Option Obj) (log : List FsOp) : List FsOp × Option ImportError :=
  match items with
  | [] => (log, none)
  | .obj itemMap :: rest =>
    let name := asString (lookup "name".toList itemMap)
    let groupPath := filepathJoin [basePath, formatFileName L name]
    let auth :=
      match asObj (lookup "auth".toList itemMap) with
      | some a => some a
      | none => parentAuth
    match hitem : lookup "item".toList itemMap with
    | some (.arr subItems) =>
      andThen (perform env (.mkdirAll groupPath) log) fun log1 =>
        andThen (createHTTPFiles L env subItems groupPath auth log1) fun log2 =>
          createHTTPFiles L env rest basePath parentAuth log2
    | _ =>
      andThen (createHTTPRequestFile L env groupPath itemMap auth log) fun log1 =>
        createHTTPFiles L env rest basePath parentAuth log1
  | _ :: rest => createHTTPFiles L env rest basePath parentAuth log
termination_by sizeOf items
decreasing_by
  all_goals simp_wf
  · have key : ∀ (m : Obj) (v : JVal), lookup "item".toList m = some v → sizeOf v < sizeOf m := by
      intro m
      induction m with
      | nil => intro v hv; simp [lookup] at hv
      | cons p tail ih =>
        intro v hv
        obtain ⟨k, w⟩ := p
        simp only [lookup] at hv
        split at hv
        · cases hv; simp; omega
        · have h2 := ih v hv; simp; omega
    have h3 := key _ _ hitem
    simp at h3
    omega

/-- The call made by `importPostmanCollection` on the `item` list of the collection. -/
def importItems (L : Lib) (env : Env) (items : List JVal) : List FsOp × Option ImportError :=
  createHTTPFiles L env items "http-requests".toList none []

/-! ## Example data -/

/-- An environment in which every file-system call succeeds. -/
def okEnv : Env := fun _ _ => true

/-- A library whose tables leave every code point above U+007F alone; the examples
below are ASCII text, for which the tables are never consulted. -/
def asciiLib : Lib := ⟨fun _ => false, fun _ => false, id, id, fun _ => []⟩

/-- The content of the request file `users/get_user.http` of the end-to-end example. -/
def getUserFile : Str :=
  "# Get User\nGET https://api.example.com/users/1\nAccept: application/json".toList

/-- The item exported for `getUserFile`. -/
def getUserItem : Item :=
  { name := "Get User".toList
    request :=
      { method := "GET".toList
        url := "https://api.example.com/users/1".toList
        header := [⟨"Accept".toList, "application/json".toList⟩]
        body := none } }

/-- The collection item of the import example:
`{name: "Get User", request: {method: "GET", url: {raw: "https://x"}, header: []}}`. -/
def importExampleItem : Obj :=
  [("name".toList, .str "Get User".toList),
    ("request".toList, .obj [("method".toList, .str "GET".toList),
      ("url".toList, .obj [("raw".toList, .str "https://x".toList)]),
      ("header".toList, .arr [])])]

mutual
/-- The names of a group and of all groups below it. -/
def RequestGroup.allNames : RequestGroup → List Str
  | .container n sub => n :: allGroupNames sub
  | .file n _ => [n]
/-- The names of all groups of a tree, at every depth. -/
def allGroupNames : List RequestGroup → List Str
  | [] => []
  | g :: rest => g.allNames ++ allGroupNames rest
end

/-- The auth descriptor that `createHTTPFiles` uses for an item and passes down: the
`auth` entry of the item when it is a map, the parent one otherwise. -/
def itemAuth (itemMap : Obj) (parentAuth : Option Obj) : Option Obj :=
  match asObj (lookup "auth".toList itemMap) with
  | some a => some a
  | none => parentAuth

/-- The path `groupPath` that `createHTTPFiles` computes for an item. -/
def itemPath (L : Lib) (basePath : Str) (itemMap : Obj) : Str :=
  filepathJoin [basePath, formatFileName L (asString (lookup "name".toList itemMap))]

/-- The lines that reach the body buffer: trimmed, blank ones left out. -/
def bodyLinesOf (lines : List Str) : List Str :=
  (lines.map trimSpace).filter (fun l => l ≠ [])

/-! ## Observations on the collection tree -/

mutual
/-- The file groups at and below a group, each with the names of the containers above
it (outermost first), its own name and its items. -/
def RequestGroup.fileGroups : RequestGroup → List (List Str × Str × List Item)
  | .container n sub => (fileGroupsOf sub).map (fun p => (n :: p.1, p.2))
  | .file n items => [([], n, items)]
/-- The file groups of a tree, in tree order. -/
def fileGroupsOf : List RequestGroup → List (List Str × Str × List Item)
  | [] => []
  | g :: rest => g.fileGroups ++ fileGroupsOf rest
end

mutual
/-- The containers at and below a group, each given by the names on the way down to it,
its own name last. -/
def RequestGroup.containerPaths : RequestGroup → List (List Str)
  | .container n sub => [n] :: (containerPathsOf sub).map (fun p => n :: p)
  | .file _ _ => []
/-- The containers of a tree, by path. -/
def containerPathsOf : List RequestGroup → List (List Str)
  | [] => []
  | g :: rest => g.containerPaths ++ containerPathsOf rest
end

/-- The names of the container groups of one level. -/
def containerNames : List RequestGroup → List Str
  | [] => []
  | .container n _ :: rest => n :: containerNames rest
  | .file _ _ :: rest => containerNames rest

mutual
/-- Below this group, no two sibling containers have the same name. -/
def RequestGroup.siblingsDistinct : RequestGroup → Bool
  | .container _ sub => decide (containerNames sub).Nodup && siblingsDistinctBelow sub
  | .file _ _ => true
/-- Below each group of the list, no two sibling containers have the same name. -/
def siblingsDistinctBelow : List RequestGroup → Bool
  | [] => true
  | g :: rest => g.siblingsDistinct && siblingsDistinctBelow rest
end

/-- At every level of the tree, the top one included, no two sibling containers have the
same name. -/
def siblingsDistinct (tree : List RequestGroup) : Bool :=
  decide (containerNames tree).Nodup && siblingsDistinctBelow tree

/-- The place and content that a call of `addToCollection` gives to its file group. -/
def Call.placed (L : Lib) (c : Call) : List Str × Str × List Item :=
  (c.dirParts.map (formatGroupName L), c.groupName, c.items)

/-- Two calls for files in the same directory `api`, then one for a file in
`api/v1`. -/
def exampleCalls : List Call :=
  [⟨["api".toList], "A.Http".toList, [getUserItem]⟩,
   ⟨["api".toList], "B.Http".toList, []⟩,
   ⟨["api".toList, "v1".toList], "C.Http".toList, []⟩]

/-- The tree the calls of `exampleCalls` build. -/
def exampleTree : List RequestGroup :=
  [.container "Api".toList
    [.file "A.Http".toList [getUserItem], .file "B.Http".toList [],
     .container "V1".toList [.file "C.Http".toList []]]]

/-! ## Observations on the imported item tree -/

/-- The leaf nodes of an item tree: `LeafAt items chain leaf` says that `leaf` is a map
without an `item` list, reached from the list `items` through the containers `chain`
(outermost first), each found in the `item` list of the one before. -/
inductive LeafAt : List JVal → List Obj → Obj → Prop where
  | top {items : List JVal} {leaf : Obj} :
      JVal.obj leaf ∈ items → asArr (lookup "item".toList leaf) = none → LeafAt items [] leaf
  | inside {items sub : List JVal} {c : Obj} {chain : List Obj} {leaf : Obj} :
      JVal.obj c ∈ items → lookup "item".toList c = some (.arr sub) → LeafAt sub chain leaf →
      LeafAt items (c :: chain) leaf

/-- The auth descriptor of the deepest node of `path` (outermost first) whose `auth`
entry is a map; `parentAuth` when no node of the path has one. -/
def deepestAuth (parentAuth : Option Obj) (path : List Obj) : Option Obj :=
  match (path.reverse.filterMap (fun m => asObj (lookup "auth".toList m))).head? with
  | some a => some a
  | none => parentAuth

/-- The directory that `createHTTPFiles` reaches from `basePath` through the containers
of `chain`. -/
def chainPath (L : Lib) (basePath : Str) (chain : List Obj) : Str :=
  chain.foldl (itemPath L) basePath

/-- The auth descriptor that `createHTTPFiles` holds after descending through the
containers of `chain`, starting with `parentAuth`. -/
def inheritedAuth (parentAuth : Option Obj) (chain : List Obj) : Option Obj :=
  chain.foldl (fun a m => itemAuth m a) parentAuth

/-- An entry `{"key": "token", "value": <string>}` of a `bearer` list. -/
def isTokenEntry : JVal → Bool
  | .obj m =>
    match lookup "key".toList m, lookup "value".toList m with
    | some (.str k), some (.str _) => decide (k = "token".toList)
    | _, _ => false
  | _ => false

/-- The path a file-system call acts on. -/
def FsOp.path : FsOp → Str
  | .mkdirAll p => p
  | .writeFile n _ => n

/-- Whether a cleaned path is the directory `base` or lies inside it. -/
def isUnder (base path : Str) : Bool :=
  decide (path = base) || (base ++ "/".toList).isPrefixOf path

/-- A bearer auth descriptor `{type: "bearer", bearer: [{key: "token", value: t}]}`. -/
def bearerAuth (t : Str) : JVal :=
  .obj [("type".toList, .str "bearer".toList),
    ("bearer".toList, .arr [.obj [("key".toList, .str "token".toList), ("value".toList, .str t)]])]

/-- A leaf `{name: "Leaf", request: {method: "GET", url: {raw: "https://x"}, header: []}}`
without any `auth`. -/
def plainLeaf : Obj :=
  [("name".toList, .str "Leaf".toList),
    ("request".toList, .obj [("method".toList, .str "GET".toList),
      ("url".toList, .obj [("raw".toList, .str "https://x".toList)]),
      ("header".toList, .arr [])])]

/-- The container `G2` with bearer token `T2`, holding `plainLeaf`. -/
def groupG2 : Obj :=
  [("name".toList, .str "G2".toList), ("auth".toList, bearerAuth "T2".toList),
    ("item".toList, .arr [.obj plainLeaf])]

/-- The container `G1` with bearer token `T1`, holding `groupG2`. -/
def groupG1 : Obj :=
  [("name".toList, .str "G1".toList), ("auth".toList, bearerAuth "T1".toList),
    ("item".toList, .arr [.obj groupG2])]

/-- A folder named `..` holding the item of the import example. -/
def dotDotFolder : Obj :=
  [("name".toList, .str "..".toList), ("item".toList, .arr [.obj importExampleItem])]

/-- A node `{name: "Broken"}` with neither an `item` list nor a `request`. -/
def brokenNode : Obj :=
  [("name".toList, .str "Broken".toList)]

/-- A request map with one header, `Accept: application/json`, and no `auth` key. -/
def acceptRequest : Obj :=
  [("method".toList, .str "GET".toList),
    ("url".toList, .obj [("raw".toList, .str "https://x".toList)]),
    ("header".toList, .arr [.obj [("key".toList, .str "Accept".toList),
      ("value".toList, .str "application/json".toList)]])]

/-- A leaf named `Leaf` with the request `acceptRequest`. -/
def acceptLeaf : Obj :=
  [("name".toList, .str "Leaf".toList), ("request".toList, .obj acceptRequest)]

/-- The entry `{key: "token", value: "T"}` of a bearer list. -/
def tokenEntry : Obj :=
  [("key".toList, .str "token".toList), ("value".toList, .str "T".toList)]

/-- A parent auth `{type: "bearer", bearer: [{key: "token", value: "T"}]}`. -/
def tokenAuth : Obj :=
  [("type".toList, .str "bearer".toList), ("bearer".toList, .arr ([] ++ .obj tokenEntry :: []))]

/-! ## Assumptions on the Unicode tables -/

/-- What the idempotence of `strings.Title` needs from the table behind
`unicode.ToTitle` above U+007F: a title-cased code point is its own title case, it is a
word separator exactly when the original is, and it is neither `_` nor `-`. The ASCII
range satisfies the same by the code of `toTitle` and `isSeparator`. -/
def TitleStable (L : Lib) : Prop :=
  ∀ r : Char, 0x7F < r.toNat →
    toTitle L (L.toTitle r) = L.toTitle r ∧
    isSeparator L (L.toTitle r) = isSeparator L r ∧
    L.toTitle r ≠ '_' ∧ L.toTitle r ≠ '-'

mutual
/-- Every container at or below this group has a non-empty item list and a file group
somewhere below it. -/
def RequestGroup.populated : RequestGroup → Bool
  | .container _ sub =>
    !sub.isEmpty && !(fileGroupsOf sub).isEmpty && populatedAll sub
  | .file _ _ => true
/-- Every container of the tree has a non-empty item list and a file group somewhere
below it. -/
def populatedAll : List RequestGroup → Bool
  | [] => true
  | g :: rest => g.populated && populatedAll rest
end

/-- What the idempotence of `strings.Title` uses of a code point: its title case is its
own title case, is a word separator exactly when the code point is, and is `_` or `-`
only if the code point is. -/
def TitleFacts (L : Lib) (r : Char) : Prop :=
  toTitle L (toTitle L r) = toTitle L r ∧
  isSeparator L (toTitle L r) = isSeparator L r ∧
  (r ≠ '_' → toTitle L r ≠ '_') ∧ (r ≠ '-' → toTitle L r ≠ '-')

/-- A name clash between a file group and a directory walk: the container path of the
file group followed by its name is the beginning of the formatted directory path, so
that the walk meets the file group where it looks for a directory. -/
def Clashes (fileGroup : List Str × Str × List Item) (formattedPath : List Str) : Prop :=
  (fileGroup.1 ++ [fileGroup.2.1]) <+: formattedPath

/-- The content of the file `name` after the file-system calls of `log`: that of the last
`os.WriteFile` on it, which truncates the file before writing. -/
def fileAfter (log : List FsOp) (name : Str) : Option Str :=
  log.foldl (fun cur op =>
    match op with
    | .writeFile n d => if n = name then some d else cur
    | .mkdirAll _ => cur) none

/-- A leaf named `get_user`, with a request other than that of `importExampleItem`. -/
def snakeLeaf : Obj :=
  [("name".toList, .str "get_user".toList),
    ("request".toList, .obj [("method".toList, .str "POST".toList),
      ("url".toList, .obj [("raw".toList, .str "https://y".toList)]),
      ("header".toList, .arr [])])]

/-- The text of one `formdata` field: `key: value` and a newline for a map with a
non-empty string `key`, nothing for any other field. -/
def fieldText : JVal → Str
  | .obj fieldMap =>
    if asString (lookup "key".toList fieldMap) ≠ [] then
      asString (lookup "key".toList fieldMap) ++ ": ".toList ++
        asString (lookup "value".toList fieldMap) ++ "\n".toList
    else []
  | _ => []

/-- A request whose `formdata` body has one field with an empty key. -/
def emptyKeyForm : Obj :=
  [("body".toList, .obj [("mode".toList, .str "formdata".toList),
    ("formdata".toList, .arr [.obj [("key".toList, .str []), ("value".toList, .str "v".toList)]])])]

/-- A request whose `formdata` body has the fields `a=1`, one with an empty key, and
`b=2`. -/
def formRequest : Obj :=
  [("body".toList, .obj [("mode".toList, .str "formdata".toList),
    ("formdata".toList, .arr [
      .obj [("key".toList, .str "a".toList), ("value".toList, .str "1".toList)],
      .obj [("key".toList, .str []), ("value".toList, .str "v".toList)],
      .obj [("key".toList, .str "b".toList), ("value".toList, .str "2".toList)]])])]

/-- The non-blank lines of a segment of a request file: the lines that are not empty
once trimmed of white space. -/
def nonBlankLines (seg : Str) : List Str :=
  (split seg "\n".toList).filter (fun l => trimSpace l ≠ [])

/-- The header a line stands for: none when the line has no colon, otherwise the text
before the first colon and the text after it, each trimmed of white space. -/
def headerOfLine (l : Str) : Option Header :=
  if ':' ∈ l then
    some ⟨trimSpace (l.takeWhile (fun x => x ≠ ':')),
      trimSpace ((l.dropWhile (fun x => x ≠ ':')).drop 1)⟩
  else none

/-! ## Well-formed requests -/

/-- A string free of newlines, without leading or trailing white space, and without the
block delimiter `###`. -/
def Plain (s : Str) : Prop :=
  '\n' ∉ s ∧ trimSpace s = s ∧ ¬ "###".toList <:+: s

/-- The map `{"key": ..., "value": ...}` of a header. -/
def headerObj (h : Header) : JVal :=
  .obj [("key".toList, .str h.key), ("value".toList, .str h.value)]

/-- The request map `{method, url: {raw: url}, header: [...]}`, without body and
without auth. -/
def plainRequest (method url : Str) (hdrs : List Header) : Obj :=
  [("method".toList, .str method), ("url".toList, .obj [("raw".toList, .str url)]),
    ("header".toList, .arr (hdrs.map headerObj))]

/-- The item `{name, request: {method, url: {raw: url}, header: [...]}}`. -/
def plainItem (name method url : Str) (hdrs : List Header) : Obj :=
  [("name".toList, .str name), ("request".toList, .obj (plainRequest method url hdrs))]

/-- The line written for a header: `key: value`. -/
def headerLine (h : Header) : Str :=
  h.key ++ ": ".toList ++ h.value

/-! ## Theorems -/

/-- C1 (evaluation at the failing input): the block of `getUserFile` is exported as
`getUserItem`, with the URL as a JSON string; `createHTTPRequestFile` reads the URL only
from a map with a `raw` entry, so the file it writes for the exported item has an empty
URL, and parsing that file again gives the URL `""` in place of the exported one. -/
theorem export_import_loses_url (L : Lib) :
    processHTTPFile getUserFile = [getUserItem] ∧
    createHTTPRequestFile L okEnv "get_user".toList getUserItem.toJSON none [] =
      ([.writeFile "get_user.http".toList
          "# Get User\nGET \nAccept: application/json\n\n\n".toList], none) ∧
    processHTTPFile "# Get User\nGET \nAccept: application/json\n\n\n".toList =
      [{ getUserItem with request := { getUserItem.request with url := [] } }] := by
  refine ⟨by rfl, by rfl, by rfl⟩

/-- C2 (counterexample): exporting `users/get_user.http` under the root `users/` gives
a tree in which no group is named `Users`. -/
theorem no_users_group_in_exported_tree :
    ¬ ∃ (L : Lib) (tree : List RequestGroup),
      walkFile L "users/".toList "users/get_user.http".toList getUserFile [] =
        some (some tree) ∧ "Users".toList ∈ allGroupNames tree := by
  rintro ⟨L, tree, h, hmem⟩
  have hrun : walkFile L "users/".toList "users/get_user.http".toList getUserFile [] =
      some (some [.container ".".toList [.file "Get User.Http".toList [getUserItem]]]) := by
    rfl
  rw [hrun] at h
  simp only [Option.some.injEq] at h
  subst h
  revert hmem
  decide

/-- C2 (amended): exporting `users/get_user.http` with the content of the example under
the root `users/` gives one container group named `.` (the formatted directory of the
path relative to the root), holding one file group named `Get User.Http` (the formatted
base name of the file, extension included), whose only item is named `Get User` and has
the request `GET https://api.example.com/users/1` with the single header
`Accept: application/json` and no body. -/
theorem export_example_tree (L : Lib) :
    walkFile L "users/".toList "users/get_user.http".toList getUserFile [] =
      some (some [.container ".".toList [.file "Get User.Http".toList
        [{ name := "Get User".toList
           request :=
             { method := "GET".toList
               url := "https://api.example.com/users/1".toList
               header := [⟨"Accept".toList, "application/json".toList⟩]
               body := none } }]]]) := by
  rfl

/-! ### Unfolding `createHTTPFiles` -/

theorem createHTTPFiles_nil (L : Lib) (env : Env) (basePath : Str) (parentAuth : Option Obj)
    (log : List FsOp) : createHTTPFiles L env [] basePath parentAuth log = (log, none) := by
  rw [createHTTPFiles]

theorem createHTTPFiles_container (L : Lib) (env : Env) (itemMap : Obj) (rest : List JVal)
    (basePath : Str) (parentAuth : Option Obj) (log : List FsOp) (subItems : List JVal)
    (h : lookup "item".toList itemMap = some (.arr subItems)) :
    createHTTPFiles L env (.obj itemMap :: rest) basePath parentAuth log =
      andThen (perform env (.mkdirAll (itemPath L basePath itemMap)) log) fun log1 =>
        andThen (createHTTPFiles L env subItems (itemPath L basePath itemMap)
          (itemAuth itemMap parentAuth) log1) fun log2 =>
          createHTTPFiles L env rest basePath parentAuth log2 := by
  rw [createHTTPFiles]
  split
  · rename_i sub heq
    rw [h] at heq
    cases heq
    rfl
  · rename_i hne
    exact absurd h (hne subItems)

theorem createHTTPFiles_leaf (L : Lib) (env : Env) (itemMap : Obj) (rest : List JVal)
    (basePath : Str) (parentAuth : Option Obj) (log : List FsOp)
    (h : asArr (lookup "item".toList itemMap) = none) :
    createHTTPFiles L env (.obj itemMap :: rest) basePath parentAuth log =
      andThen (createHTTPRequestFile L env (itemPath L basePath itemMap) itemMap
        (itemAuth itemMap parentAuth) log) fun log1 =>
          createHTTPFiles L env rest basePath parentAuth log1 := by
  rw [createHTTPFiles]
  split
  · rename_i sub heq
    rw [heq] at h
    simp [asArr] at h
  · rfl

theorem createHTTPFiles_skip (L : Lib) (env : Env) (head : JVal) (rest : List JVal)
    (basePath : Str) (parentAuth : Option Obj) (log : List FsOp)
    (h : ∀ m, head ≠ .obj m) :
    createHTTPFiles L env (head :: rest) basePath parentAuth log =
      createHTTPFiles L env rest basePath parentAuth log := by
  rw [createHTTPFiles.eq_3]
  intro m hm
  exact h m hm

/-- Evaluation of the import example. -/
theorem run_import_example (L : Lib) :
    importItems L okEnv [.obj importExampleItem] =
      ([.writeFile "http-requests/get_user.http".toList
          "# Get User\nGET https://x\n\n\n\n".toList], none) := by
  rw [importItems, createHTTPFiles_leaf _ _ _ _ _ _ _ (by rfl)]
  simp only [createHTTPFiles_nil]
  rw [show itemPath L "http-requests".toList importExampleItem =
    "http-requests/get_user".toList from rfl]
  rfl

/-- C3 (amended): importing the collection item of the example under the base path
`http-requests` writes exactly one file, `http-requests/get_user.http`, creates no
directory and returns no error; the content of the file is
`# Get User\nGET https://x\n\n\n\n`: the name line, the method and URL line, the empty
header section with its newline, the blank separator line and the newline that ends the
empty body. -/
theorem import_example_writes_one_file (L : Lib) :
    importItems L okEnv [.obj importExampleItem] =
      ([.writeFile "http-requests/get_user.http".toList
          "# Get User\nGET https://x\n\n\n\n".toList], none) :=
  run_import_example L

/-- C3 (counterexample): the file written for the collection item of the import example
does not have the content `# Get User\nGET https://x\n\n\n`. -/
theorem claimed_import_content_differs :
    ¬ ∃ L : Lib, importItems L okEnv [.obj importExampleItem] =
      ([.writeFile "http-requests/get_user.http".toList
          "# Get User\nGET https://x\n\n\n".toList], none) := by
  rintro ⟨L, h⟩
  rw [run_import_example L] at h
  revert h
  decide

/-! ### The header/body splitter -/

theorem loop_headersEnded (lines : List Str) (headers : List Header) (bodyLines : List Str) :
    processHeadersAndBodyLoop lines true headers bodyLines =
      (headers, bodyLines ++ bodyLinesOf lines) := by
  induction lines generalizing bodyLines with
  | nil => simp [processHeadersAndBodyLoop, bodyLinesOf]
  | cons line rest ih =>
    rw [processHeadersAndBodyLoop]
    by_cases hb : trimSpace line = []
    · simp only [hb, if_true]
      rw [ih]
      simp [bodyLinesOf, hb]
    · simp only [hb, if_false, if_true]
      rw [ih]
      simp [bodyLinesOf, hb]

theorem loop_body (lines : List Str) (headers : List Header) (bodyLines : List Str) :
    (processHeadersAndBodyLoop lines false headers bodyLines).2 =
      bodyLines ++ bodyLinesOf (lines.dropWhile (fun l => trimSpace l ≠ [])) := by
  induction lines generalizing headers with
  | nil => simp [processHeadersAndBodyLoop, bodyLinesOf]
  | cons line rest ih =>
    rw [processHeadersAndBodyLoop]
    by_cases hb : trimSpace line = []
    · simp only [hb, if_true]
      rw [loop_headersEnded]
      simp [List.dropWhile, hb, bodyLinesOf]
    · simp only [hb, if_false]
      have hd : (line :: rest).dropWhile (fun l => trimSpace l ≠ []) =
          rest.dropWhile (fun l => trimSpace l ≠ []) := by
        simp [List.dropWhile, hb]
      rw [hd]
      simp only [Bool.false_eq_true, if_false]
      split
      · exact ih _
      · exact ih _

/-- C4 (counterexample): for the lines of the example the body is not
`line1\n\nline2`. -/
theorem body_example_drops_blank_line :
    (processHeadersAndBody
      ["A: 1".toList, "B: 2".toList, [], "line1".toList, [], "line2".toList]).2 ≠
      "line1\n\nline2".toList := by
  decide

/-- C4 (amended): for every list of lines the body returned by `processHeadersAndBody`
is made of the lines that follow the first blank line (a line that is empty once
trimmed of surrounding white space), each trimmed, the blank ones left out, joined
with a newline; for the lines of the example the result is the headers `A: 1`, `B: 2`
and the body `line1\nline2`. -/
theorem body_is_trimmed_nonblank_lines :
    (∀ lines : List Str,
      (processHeadersAndBody lines).2 =
        join (((lines.dropWhile (fun l => trimSpace l ≠ [])).map trimSpace).filter
          (fun l => l ≠ [])) "\n".toList) ∧
    processHeadersAndBody
        ["A: 1".toList, "B: 2".toList, [], "line1".toList, [], "line2".toList] =
      ([⟨"A".toList, "1".toList⟩, ⟨"B".toList, "2".toList⟩], "line1\nline2".toList) := by
  refine ⟨fun lines => ?_, by decide⟩
  simp only [processHeadersAndBody]
  rw [loop_body]
  simp [bodyLinesOf]

/-! ### The collection tree -/

theorem findGroup_some {fp : Str} {cur before after : List RequestGroup} {g : RequestGroup}
    (h : findGroup fp cur = some (before, g, after)) :
    cur = before ++ g :: after ∧ g.name = fp ∧ ∀ x ∈ before, x.name ≠ fp := by
  induction cur generalizing before with
  | nil => simp [findGroup] at h
  | cons x xs ih =>
    rw [findGroup] at h
    split at h
    · rename_i hx
      simp only [Option.some.injEq, Prod.mk.injEq] at h
      obtain ⟨rfl, rfl, rfl⟩ := h
      simp [hx]
    · rename_i hx
      cases hr : findGroup fp xs with
      | none => simp [hr] at h
      | some r =>
        obtain ⟨b, g', a⟩ := r
        simp only [hr, Option.map_some', Option.some.injEq, Prod.mk.injEq] at h
        obtain ⟨rfl, rfl, rfl⟩ := h
        obtain ⟨h1, h2, h3⟩ := ih hr
        refine ⟨by rw [h1]; rfl, h2, ?_⟩
        intro y hy
        rcases List.mem_cons.1 hy with rfl | hy
        · exact hx
        · exact h3 y hy

theorem findGroup_none {fp : Str} {cur : List RequestGroup} (h : findGroup fp cur = none) :
    ∀ x ∈ cur, x.name ≠ fp := by
  induction cur with
  | nil => simp
  | cons x xs ih =>
    rw [findGroup] at h
    split at h
    · simp at h
    · rename_i hx
      have hr : findGroup fp xs = none := by
        cases hr : findGroup fp xs with
        | none => rfl
        | some r => simp [hr] at h
      intro y hy
      rcases List.mem_cons.1 hy with rfl | hy
      · exact hx
      · exact ih hr y hy

theorem fileGroupsOf_append (a b : List RequestGroup) :
    fileGroupsOf (a ++ b) = fileGroupsOf a ++ fileGroupsOf b := by
  induction a with
  | nil => simp [fileGroupsOf]
  | cons x xs ih => simp [fileGroupsOf, ih]

theorem containerPathsOf_append (a b : List RequestGroup) :
    containerPathsOf (a ++ b) = containerPathsOf a ++ containerPathsOf b := by
  induction a with
  | nil => simp [containerPathsOf]
  | cons x xs ih => simp [containerPathsOf, ih]

theorem containerNames_append (a b : List RequestGroup) :
    containerNames (a ++ b) = containerNames a ++ containerNames b := by
  induction a with
  | nil => simp [containerNames]
  | cons x xs ih => cases x <;> simp [containerNames, ih]

theorem siblingsDistinctBelow_append (a b : List RequestGroup) :
    siblingsDistinctBelow (a ++ b) = (siblingsDistinctBelow a && siblingsDistinctBelow b) := by
  induction a with
  | nil => simp [siblingsDistinctBelow]
  | cons x xs ih => simp [siblingsDistinctBelow, ih, Bool.and_assoc]

/-- One call adds exactly its file group, at the formatted path, and keeps the others. -/
theorem addToCollection_fileGroups (L : Lib) (dirParts : List Str) (groupName : Str)
    (items : List Item) (cur cur' : List RequestGroup)
    (h : addToCollection L cur dirParts groupName items = some cur') :
    (fileGroupsOf cur').Perm
      ((dirParts.map (formatGroupName L), groupName, items) :: fileGroupsOf cur) := by
  induction dirParts generalizing cur cur' with
  | nil =>
    simp only [addToCollection, Option.some.injEq] at h
    subst h
    rw [fileGroupsOf_append]
    simp [fileGroupsOf, RequestGroup.fileGroups]
  | cons part rest ih =>
    rw [addToCollection] at h
    split at h
    · rename_i before n sub after hfind
      obtain ⟨hcur, hname, -⟩ := findGroup_some hfind
      cases hsub : addToCollection L sub rest groupName items with
      | none => simp [hsub] at h
      | some sub' =>
        simp only [hsub, Option.map_some', Option.some.injEq] at h
        subst h
        have hp := ih sub sub' hsub
        have hn : n = formatGroupName L part := hname
        subst hcur
        simp only [fileGroupsOf_append, fileGroupsOf, RequestGroup.fileGroups, List.map_cons]
        have hp2 := hp.map (fun p : List Str × Str × List Item => (n :: p.1, p.2))
        simp only [List.map_cons] at hp2
        rw [← hn]
        refine (List.Perm.append_left _ (List.Perm.append_right _ hp2)).trans ?_
        simp only [List.cons_append]
        exact List.perm_middle
    · simp at h
    · rename_i hfind
      cases hsub : addToCollection L [] rest groupName items with
      | none => simp [hsub] at h
      | some sub' =>
        simp only [hsub, Option.map_some', Option.some.injEq] at h
        subst h
        have hp := ih [] sub' hsub
        have hp2 := hp.map
          (fun p : List Str × Str × List Item => (formatGroupName L part :: p.1, p.2))
        simp only [fileGroupsOf, List.map_cons, List.map_nil] at hp2
        simp only [fileGroupsOf_append, fileGroupsOf, RequestGroup.fileGroups, List.map_cons,
          List.append_nil]
        exact (List.Perm.append_left _ hp2).trans (List.perm_append_singleton _ _)

theorem containerNames_mem {n : Str} {l : List RequestGroup} (h : n ∈ containerNames l) :
    ∃ g ∈ l, g.name = n := by
  induction l with
  | nil => simp [containerNames] at h
  | cons x xs ih =>
    cases x with
    | container m sub =>
      simp only [containerNames, List.mem_cons] at h
      rcases h with rfl | h
      · exact ⟨_, List.mem_cons_self _ _, rfl⟩
      · obtain ⟨g, hg, hn⟩ := ih h
        exact ⟨g, List.mem_cons_of_mem _ hg, hn⟩
    | file m its =>
      simp only [containerNames] at h
      obtain ⟨g, hg, hn⟩ := ih h
      exact ⟨g, List.mem_cons_of_mem _ hg, hn⟩

/-- Every container path of a tree starts with the name of one of its top groups, and is
not empty. -/
theorem containerPathsOf_head {p : List Str} {l : List RequestGroup}
    (h : p ∈ containerPathsOf l) :
    ∃ n q, p = n :: q ∧ [n] ∈ containerPathsOf l ∧ ∃ g ∈ l, g.name = n := by
  induction l with
  | nil => simp [containerPathsOf] at h
  | cons x xs ih =>
    simp only [containerPathsOf, List.mem_append] at h
    rcases h with h | h
    · cases x with
      | container m sub =>
        refine ⟨m, p.tail, ?_, ?_, _, List.mem_cons_self _ _, rfl⟩
        · simp only [RequestGroup.containerPaths, List.mem_cons, List.mem_map] at h
          rcases h with rfl | ⟨q, -, rfl⟩ <;> rfl
        · simp [containerPathsOf, RequestGroup.containerPaths]
      | file m its => simp [RequestGroup.containerPaths] at h
    · obtain ⟨n, q, hp, hn, g, hg, hgn⟩ := ih h
      refine ⟨n, q, hp, ?_, g, List.mem_cons_of_mem _ hg, hgn⟩
      simp only [containerPathsOf, List.mem_append]
      exact Or.inr hn

theorem nodup_block {a b S : List (List Str)} {n : Str} (ha : a.Nodup) (hb : b.Nodup)
    (hab : a.Disjoint b) (hPa : ∀ q, n :: q ∉ a) (hPb : ∀ q, n :: q ∉ b) (hS : S.Nodup)
    (hne : [] ∉ S) : (a ++ (([n] :: S.map (fun p => n :: p)) ++ b)).Nodup := by
  have hblock : ∀ x ∈ [n] :: S.map (fun p => n :: p), ∃ q, x = n :: q := by
    intro x hx
    rcases List.mem_cons.1 hx with rfl | hx
    · exact ⟨[], rfl⟩
    · obtain ⟨q, -, rfl⟩ := List.mem_map.1 hx
      exact ⟨q, rfl⟩
  rw [List.nodup_append]
  refine ⟨ha, ?_, ?_⟩
  · rw [List.nodup_append]
    refine ⟨?_, hb, ?_⟩
    · rw [List.nodup_cons]
      refine ⟨?_, hS.map (fun x y hxy => by simpa using hxy)⟩
      intro hm
      obtain ⟨q, hq, hqe⟩ := List.mem_map.1 hm
      have : q = [] := by simpa using hqe
      exact hne (this ▸ hq)
    · intro x hx hxb
      obtain ⟨q, rfl⟩ := hblock x hx
      exact hPb q hxb
  · intro x hxa hx
    rcases List.mem_append.1 hx with hx | hx
    · obtain ⟨q, rfl⟩ := hblock x hx
      exact hPa q hxa
    · exact hab hxa hx

theorem containerPathsOf_ne_nil (l : List RequestGroup) : [] ∉ containerPathsOf l := by
  intro h
  obtain ⟨n, q, hp, -⟩ := containerPathsOf_head h
  cases hp

/-- One call keeps the container paths free of duplicates. -/
theorem addToCollection_containerPaths (L : Lib) (dirParts : List Str) (groupName : Str)
    (items : List Item) (cur cur' : List RequestGroup)
    (h : addToCollection L cur dirParts groupName items = some cur')
    (hcur : (containerPathsOf cur).Nodup) : (containerPathsOf cur').Nodup := by
  induction dirParts generalizing cur cur' with
  | nil =>
    simp only [addToCollection, Option.some.injEq] at h
    subst h
    rw [containerPathsOf_append]
    simpa [containerPathsOf, RequestGroup.containerPaths] using hcur
  | cons part rest ih =>
    rw [addToCollection] at h
    split at h
    · rename_i before n sub after hfind
      obtain ⟨hc, -, -⟩ := findGroup_some hfind
      cases hsub : addToCollection L sub rest groupName items with
      | none => simp [hsub] at h
      | some sub' =>
        simp only [hsub, Option.map_some', Option.some.injEq] at h
        subst h
        subst hc
        simp only [containerPathsOf_append, containerPathsOf, RequestGroup.containerPaths]
          at hcur ⊢
        rw [List.nodup_append] at hcur
        obtain ⟨ha, hrest, hdis⟩ := hcur
        rw [List.nodup_append] at hrest
        obtain ⟨hblk, hb, hdis2⟩ := hrest
        rw [List.nodup_cons] at hblk
        have hsubnd : (containerPathsOf sub).Nodup := by
          have := hblk.2
          exact List.Nodup.of_map _ this
        have hPa : ∀ q, n :: q ∉ containerPathsOf before := by
          intro q hq
          obtain ⟨m, q', hp, hm, -⟩ := containerPathsOf_head hq
          have hmn : m = n := by cases hp; rfl
          subst hmn
          exact hdis hm (by simp)
        have hPb : ∀ q, n :: q ∉ containerPathsOf after := by
          intro q hq
          obtain ⟨m, q', hp, hm, -⟩ := containerPathsOf_head hq
          have hmn : m = n := by cases hp; rfl
          subst hmn
          exact hdis2 (List.mem_cons_self _ _) hm
        have hab : (containerPathsOf before).Disjoint (containerPathsOf after) := by
          intro x hx hy
          exact hdis hx (List.mem_append_right _ hy)
        exact nodup_block ha hb hab hPa hPb (ih sub sub' hsub hsubnd)
          (containerPathsOf_ne_nil sub')
    · simp at h
    · rename_i hfind
      cases hsub : addToCollection L [] rest groupName items with
      | none => simp [hsub] at h
      | some sub' =>
        simp only [hsub, Option.map_some', Option.some.injEq] at h
        subst h
        have hno := findGroup_none hfind
        have hPa : ∀ q, formatGroupName L part :: q ∉ containerPathsOf cur := by
          intro q hq
          obtain ⟨m, q', hp, -, g, hg, hgn⟩ := containerPathsOf_head hq
          have hmn : m = formatGroupName L part := by cases hp; rfl
          exact hno g hg (hgn.trans hmn)
        have hnd := @nodup_block (containerPathsOf cur) [] (containerPathsOf sub')
          (formatGroupName L part) hcur List.nodup_nil (by intro x _ hx; cases hx) hPa
          (by intro q hq; cases hq) (ih [] sub' hsub (by simp [containerPathsOf]))
          (containerPathsOf_ne_nil sub')
        simpa [containerPathsOf_append, containerPathsOf, RequestGroup.containerPaths]
          using hnd

/-- One call keeps sibling containers distinct at every level. -/
theorem addToCollection_siblingsDistinct (L : Lib) (dirParts : List Str) (groupName : Str)
    (items : List Item) (cur cur' : List RequestGroup)
    (h : addToCollection L cur dirParts groupName items = some cur')
    (hcur : siblingsDistinct cur = true) : siblingsDistinct cur' = true := by
  induction dirParts generalizing cur cur' with
  | nil =>
    simp only [addToCollection, Option.some.injEq] at h
    subst h
    simp only [siblingsDistinct, Bool.and_eq_true, decide_eq_true_eq] at hcur ⊢
    rw [containerNames_append, siblingsDistinctBelow_append]
    simpa [containerNames, siblingsDistinctBelow, RequestGroup.siblingsDistinct] using hcur
  | cons part rest ih =>
    rw [addToCollection] at h
    split at h
    · rename_i before n sub after hfind
      obtain ⟨hc, -, -⟩ := findGroup_some hfind
      cases hsub : addToCollection L sub rest groupName items with
      | none => simp [hsub] at h
      | some sub' =>
        simp only [hsub, Option.map_some', Option.some.injEq] at h
        subst h
        subst hc
        simp only [siblingsDistinct, Bool.and_eq_true, decide_eq_true_eq,
          containerNames_append, siblingsDistinctBelow_append, containerNames,
          siblingsDistinctBelow, RequestGroup.siblingsDistinct] at hcur ⊢
        obtain ⟨hnames, hbefore, ⟨hsubn, hsubb⟩, hafter⟩ := hcur
        have hs : siblingsDistinct sub' = true :=
          ih sub sub' hsub (by simp [siblingsDistinct, hsubn, hsubb])
        simp only [siblingsDistinct, Bool.and_eq_true, decide_eq_true_eq] at hs
        exact ⟨hnames, hbefore, hs, hafter⟩
    · simp at h
    · rename_i hfind
      cases hsub : addToCollection L [] rest groupName items with
      | none => simp [hsub] at h
      | some sub' =>
        simp only [hsub, Option.map_some', Option.some.injEq] at h
        subst h
        have hno := findGroup_none hfind
        have hs : siblingsDistinct sub' = true :=
          ih [] sub' hsub (by simp [siblingsDistinct, containerNames, siblingsDistinctBelow])
        simp only [siblingsDistinct, Bool.and_eq_true, decide_eq_true_eq,
          containerNames_append, siblingsDistinctBelow_append, containerNames,
          siblingsDistinctBelow, RequestGroup.siblingsDistinct] at hcur hs ⊢
        refine ⟨?_, hcur.2, ⟨hs, trivial⟩⟩
        rw [List.nodup_append]
        refine ⟨hcur.1, List.nodup_singleton _, ?_⟩
        intro x hx hx2
        have hxe : x = formatGroupName L part := by simpa using hx2
        obtain ⟨g, hg, hgn⟩ := containerNames_mem hx
        exact hno g hg (hgn.trans hxe)

theorem addAll_append (L : Lib) (a b : List Call) (t : List RequestGroup) :
    addAll L (a ++ b) t = (addAll L a t).bind (addAll L b) := by
  induction a generalizing t with
  | nil => simp [addAll]
  | cons c cs ih =>
    simp only [List.cons_append, addAll]
    cases addToCollection L t c.dirParts c.groupName c.items with
    | none => simp
    | some t' => simpa using ih t'

theorem addAll_invariants (L : Lib) (calls : List Call) (t t' : List RequestGroup)
    (h : addAll L calls t = some t') :
    (siblingsDistinct t = true → siblingsDistinct t' = true) ∧
    ((containerPathsOf t).Nodup → (containerPathsOf t').Nodup) ∧
    (fileGroupsOf t').Perm (fileGroupsOf t ++ calls.map (Call.placed L)) := by
  induction calls generalizing t with
  | nil =>
    simp only [addAll, Option.some.injEq] at h
    subst h
    simp
  | cons c cs ih =>
    rw [addAll] at h
    cases hc : addToCollection L t c.dirParts c.groupName c.items with
    | none => simp [hc] at h
    | some t1 =>
      simp only [hc] at h
      obtain ⟨h1, h2, h3⟩ := ih t1 h
      refine ⟨fun hs => h1 (addToCollection_siblingsDistinct L _ _ _ _ _ hc hs),
        fun hn => h2 (addToCollection_containerPaths L _ _ _ _ _ hc hn), ?_⟩
      refine h3.trans ?_
      have hp := addToCollection_fileGroups L _ _ _ _ _ hc
      refine (List.Perm.append_right _ hp).trans ?_
      simp only [List.map_cons, List.cons_append]
      exact List.perm_middle.symm

/-- C5: after any sequence of calls of `addToCollection` that starts from the empty
item list and completes, no two sibling containers have the same name, at any level of
the tree, and hence no two containers have the same path of names: the containers for
a shared prefix of directory parts are the same nodes. -/
theorem shared_ancestors_are_merged (L : Lib) (calls : List Call) (tree : List RequestGroup)
    (h : addAll L calls [] = some tree) :
    siblingsDistinct tree = true ∧ (containerPathsOf tree).Nodup := by
  obtain ⟨h1, h2, -⟩ := addAll_invariants L calls [] tree h
  exact ⟨h1 (by decide), h2 (by simp [containerPathsOf])⟩

/-- C5 (witness): three calls, two of them for the same directory `api` and one for
`api/v1`, build a tree with one container `Api` holding one container `V1`. -/
theorem shared_ancestors_are_merged_witness :
    addAll asciiLib exampleCalls [] = some exampleTree ∧
    siblingsDistinct exampleTree = true ∧ (containerPathsOf exampleTree).Nodup :=
  ⟨by rfl, shared_ancestors_are_merged asciiLib exampleCalls exampleTree (by rfl)⟩

/-- C6: after any sequence of calls of `addToCollection` that starts from the empty
item list and completes, the file groups of the tree are, up to their order in the tree,
exactly one per call: the group of a call has the name `groupName` of the call, holds
its `items`, and sits under the containers named by `formatGroupName` of its
`dirParts`; there are as many file groups as calls; and the file groups present after
any first part of the calls are all still there, unchanged, at the end. -/
theorem every_call_adds_one_file_group (L : Lib) (calls : List Call)
    (tree : List RequestGroup) (h : addAll L calls [] = some tree) :
    (fileGroupsOf tree).Perm (calls.map (Call.placed L)) ∧
    (fileGroupsOf tree).length = calls.length ∧
    ∀ earlier later : List Call, calls = earlier ++ later →
      ∃ mid, addAll L earlier [] = some mid ∧
        (fileGroupsOf tree).Perm (fileGroupsOf mid ++ later.map (Call.placed L)) := by
  have hp : (fileGroupsOf tree).Perm (calls.map (Call.placed L)) := by
    simpa [fileGroupsOf] using (addAll_invariants L calls [] tree h).2.2
  refine ⟨hp, by simpa using hp.length_eq, ?_⟩
  intro earlier later hsplit
  subst hsplit
  rw [addAll_append] at h
  cases hmid : addAll L earlier [] with
  | none => simp [hmid] at h
  | some mid =>
    simp only [hmid, Option.some_bind] at h
    exact ⟨mid, rfl, (addAll_invariants L later mid tree h).2.2⟩

/-- C6 (witness): the three calls of `exampleCalls` build `exampleTree`, whose file
groups are the three of the calls. -/
theorem every_call_adds_one_file_group_witness :
    addAll asciiLib exampleCalls [] = some exampleTree ∧
    ((fileGroupsOf exampleTree).Perm (exampleCalls.map (Call.placed asciiLib)) ∧
    (fileGroupsOf exampleTree).length = exampleCalls.length ∧
    ∀ earlier later : List Call, exampleCalls = earlier ++ later →
      ∃ mid, addAll asciiLib earlier [] = some mid ∧
        (fileGroupsOf exampleTree).Perm
          (fileGroupsOf mid ++ later.map (Call.placed asciiLib))) :=
  ⟨by rfl, every_call_adds_one_file_group asciiLib exampleCalls exampleTree (by rfl)⟩

/-! ### The importer -/

theorem andThen_none (log : List FsOp) (k : List FsOp → List FsOp × Option ImportError) :
    andThen (log, none) k = k log := rfl

theorem andThen_some (log : List FsOp) (err : ImportError)
    (k : List FsOp → List FsOp × Option ImportError) :
    andThen (log, some err) k = (log, some err) := rfl

theorem andThen_assoc (r : List FsOp × Option ImportError)
    (k1 k2 : List FsOp → List FsOp × Option ImportError) :
    andThen (andThen r k1) k2 = andThen r (fun log => andThen (k1 log) k2) := by
  obtain ⟨log, e⟩ := r
  cases e <;> rfl

/-- When a sequence returns no error, neither did its first step. -/
theorem andThen_ok {r : List FsOp × Option ImportError}
    {k : List FsOp → List FsOp × Option ImportError} (h : (andThen r k).2 = none) :
    r.2 = none ∧ andThen r k = k r.1 := by
  obtain ⟨log, e⟩ := r
  cases e with
  | none => exact ⟨rfl, rfl⟩
  | some err => simp [andThen] at h

/-- Induction over an item list along the recursion of `createHTTPFiles`. -/
theorem items_induction (P : List JVal → Prop) (hnil : P [])
    (hcontainer : ∀ (m : Obj) (rest sub : List JVal),
      lookup "item".toList m = some (.arr sub) → P sub → P rest → P (.obj m :: rest))
    (hleaf : ∀ (m : Obj) (rest : List JVal),
      asArr (lookup "item".toList m) = none → P rest → P (.obj m :: rest))
    (hskip : ∀ (head : JVal) (rest : List JVal),
      (∀ m, head ≠ .obj m) → P rest → P (head :: rest)) :
    ∀ items, P items := by
  intro items
  refine createHTTPFiles.induct asciiLib okEnv (fun items _ _ _ => P items)
    (fun _ _ _ => hnil) ?_ ?_ ?_ items [] none []
  · intro _ _ _ m rest _ _ _ sub hsub ih1 ih2
    exact hcontainer m rest sub hsub (ih1 []) (ih2 [])
  · intro _ _ _ m rest hno ih
    refine hleaf m rest ?_ (ih [])
    cases hl : lookup "item".toList m with
    | none => rfl
    | some v =>
      cases v with
      | arr sub => exact absurd hl (hno sub)
      | _ => rfl
  · intro _ _ _ head rest hne ih
    exact hskip head rest (fun m hm => hne m hm) ih

theorem perform_log (env : Env) (op : FsOp) (log : List FsOp) :
    ∃ extra, (perform env op log).1 = log ++ extra := by
  unfold perform
  split
  · exact ⟨[op], rfl⟩
  · exact ⟨[], by simp⟩

theorem perform_ok {env : Env} {op : FsOp} {log : List FsOp}
    (h : (perform env op log).2 = none) : perform env op log = (log ++ [op], none) := by
  unfold perform at h ⊢
  split
  · rfl
  · rename_i hf
    simp [hf] at h

theorem createHTTPRequestFile_log (L : Lib) (env : Env) (filePath : Str) (item : Obj)
    (parentAuth : Option Obj) (log : List FsOp) :
    ∃ extra, (createHTTPRequestFile L env filePath item parentAuth log).1 = log ++ extra := by
  unfold createHTTPRequestFile
  split
  · exact ⟨[], by simp⟩
  · exact perform_log _ _ _

/-- The calls already logged stay in the log, in front. -/
theorem createHTTPFiles_log (L : Lib) (env : Env) (items : List JVal) :
    ∀ (basePath : Str) (parentAuth : Option Obj) (log : List FsOp),
      ∃ extra, (createHTTPFiles L env items basePath parentAuth log).1 = log ++ extra := by
  refine items_induction (fun items => ∀ (basePath : Str) (parentAuth : Option Obj)
    (log : List FsOp),
      ∃ extra, (createHTTPFiles L env items basePath parentAuth log).1 = log ++ extra)
    ?_ ?_ ?_ ?_ items
  · intro b pa log
    exact ⟨[], by simp [createHTTPFiles_nil]⟩
  · intro m rest sub hsub ihsub ihrest b pa log
    rw [createHTTPFiles_container L env m rest b pa log sub hsub]
    obtain ⟨e1, h1⟩ := perform_log env (.mkdirAll (itemPath L b m)) log
    rcases hp : perform env (.mkdirAll (itemPath L b m)) log with ⟨log1, _ | err⟩
    · rw [hp] at h1
      simp only at h1
      subst h1
      rw [andThen_none]
      obtain ⟨e2, h2⟩ := ihsub (itemPath L b m) (itemAuth m pa) (log ++ e1)
      rcases hs : createHTTPFiles L env sub (itemPath L b m) (itemAuth m pa) (log ++ e1)
        with ⟨log2, _ | err⟩
      · rw [hs] at h2
        simp only at h2
        subst h2
        rw [andThen_none]
        obtain ⟨e3, h3⟩ := ihrest b pa (log ++ e1 ++ e2)
        exact ⟨e1 ++ e2 ++ e3, by rw [h3]; simp⟩
      · rw [hs] at h2
        simp only at h2
        subst h2
        exact ⟨e1 ++ e2, by simp [andThen]⟩
    · rw [hp] at h1
      exact ⟨e1, by simpa [andThen] using h1⟩
  · intro m rest hleaf ihrest b pa log
    rw [createHTTPFiles_leaf L env m rest b pa log hleaf]
    obtain ⟨e1, h1⟩ := createHTTPRequestFile_log L env (itemPath L b m) m (itemAuth m pa) log
    rcases hp : createHTTPRequestFile L env (itemPath L b m) m (itemAuth m pa) log
      with ⟨log1, _ | err⟩
    · rw [hp] at h1
      simp only at h1
      subst h1
      rw [andThen_none]
      obtain ⟨e3, h3⟩ := ihrest b pa (log ++ e1)
      exact ⟨e1 ++ e3, by rw [h3]; simp⟩
    · rw [hp] at h1
      exact ⟨e1, by simpa [andThen] using h1⟩
  · intro head rest hne ihrest b pa log
    rw [createHTTPFiles_skip L env head rest b pa log hne]
    exact ihrest b pa log

theorem createHTTPFiles_mem_log (L : Lib) (env : Env) (items : List JVal) (basePath : Str)
    (parentAuth : Option Obj) (log : List FsOp) {op : FsOp} (h : op ∈ log) :
    op ∈ (createHTTPFiles L env items basePath parentAuth log).1 := by
  obtain ⟨extra, he⟩ := createHTTPFiles_log L env items basePath parentAuth log
  rw [he]
  exact List.mem_append_left _ h

theorem createHTTPRequestFile_ok {L : Lib} {env : Env} {filePath : Str} {item : Obj}
    {parentAuth : Option Obj} {log : List FsOp}
    (h : (createHTTPRequestFile L env filePath item parentAuth log).2 = none) :
    ∃ request, asObj (lookup "request".toList item) = some request ∧
      createHTTPRequestFile L env filePath item parentAuth log =
        (log ++ [.writeFile (filepathJoin [filePath ++ ".http".toList])
          (requestContent L item request parentAuth)], none) := by
  unfold createHTTPRequestFile at h ⊢
  split at h
  · simp at h
  · rename_i request hr
    rw [hr]
    exact ⟨request, rfl, perform_ok h⟩

/-- The file of every leaf is written with the auth inherited along its chain, when
the import returns no error. -/
theorem createHTTPFiles_leaf_written (L : Lib) (env : Env) (items : List JVal) :
    ∀ (basePath : Str) (parentAuth : Option Obj) (log : List FsOp) (chain : List Obj)
      (leaf : Obj),
      (createHTTPFiles L env items basePath parentAuth log).2 = none →
      LeafAt items chain leaf →
      ∃ request, asObj (lookup "request".toList leaf) = some request ∧
        FsOp.writeFile
            (filepathJoin [itemPath L (chainPath L basePath chain) leaf ++ ".http".toList])
            (requestContent L leaf request (itemAuth leaf (inheritedAuth parentAuth chain))) ∈
          (createHTTPFiles L env items basePath parentAuth log).1 := by
  refine items_induction (fun items => ∀ (basePath : Str) (parentAuth : Option Obj)
    (log : List FsOp) (chain : List Obj) (leaf : Obj),
      (createHTTPFiles L env items basePath parentAuth log).2 = none →
      LeafAt items chain leaf →
      ∃ request, asObj (lookup "request".toList leaf) = some request ∧
        FsOp.writeFile
            (filepathJoin [itemPath L (chainPath L basePath chain) leaf ++ ".http".toList])
            (requestContent L leaf request (itemAuth leaf (inheritedAuth parentAuth chain))) ∈
          (createHTTPFiles L env items basePath parentAuth log).1) ?_ ?_ ?_ ?_ items
  · intro b pa log chain leaf _ hl
    cases hl with
    | top hmem _ => simp at hmem
    | inside hmem _ _ => simp at hmem
  · intro m rest sub hsub ihsub ihrest b pa log chain leaf hok hl
    rw [createHTTPFiles_container L env m rest b pa log sub hsub] at hok ⊢
    obtain ⟨hp, hw⟩ := andThen_ok hok
    rw [hw] at hok ⊢
    rw [perform_ok hp] at hok ⊢
    simp only at hok ⊢
    obtain ⟨hs, hw2⟩ := andThen_ok hok
    rw [hw2] at hok ⊢
    cases hl with
    | top hmem hleaf =>
      rcases List.mem_cons.1 hmem with heq | hmem
      · cases heq
        rw [hsub] at hleaf
        simp [asArr] at hleaf
      · exact ihrest b pa _ [] leaf hok (.top hmem hleaf)
    | inside hmem hc hl' =>
      rename_i sub' c chain'
      rcases List.mem_cons.1 hmem with heq | hmem
      · have hcm : c = m := by cases heq; rfl
        rw [hcm] at hc ⊢
        rw [hsub] at hc
        cases hc
        obtain ⟨request, hr, hin⟩ := ihsub (itemPath L b m) (itemAuth m pa) _ chain' leaf hs hl'
        exact ⟨request, hr, createHTTPFiles_mem_log L env rest b pa _ hin⟩
      · exact ihrest b pa _ (c :: chain') leaf hok (.inside hmem hc hl')
  · intro m rest hleaf ihrest b pa log chain leaf hok hl
    rw [createHTTPFiles_leaf L env m rest b pa log hleaf] at hok ⊢
    obtain ⟨hp, hw⟩ := andThen_ok hok
    rw [hw] at hok ⊢
    obtain ⟨request, hr, hrun⟩ := createHTTPRequestFile_ok hp
    rw [hrun] at hok ⊢
    simp only at hok ⊢
    cases hl with
    | top hmem hleaf' =>
      rcases List.mem_cons.1 hmem with heq | hmem
      · cases heq
        refine ⟨request, hr, createHTTPFiles_mem_log L env rest b pa _ ?_⟩
        simp [chainPath, inheritedAuth]
      · exact ihrest b pa _ [] leaf hok (.top hmem hleaf')
    | inside hmem hc hl' =>
      rename_i sub' c chain'
      rcases List.mem_cons.1 hmem with heq | hmem
      · have hcm : c = m := by cases heq; rfl
        rw [hcm] at hc
        rw [hc] at hleaf
        simp [asArr] at hleaf
      · exact ihrest b pa _ (c :: chain') leaf hok (.inside hmem hc hl')
  · intro head rest hne ihrest b pa log chain leaf hok hl
    rw [createHTTPFiles_skip L env head rest b pa log hne] at hok ⊢
    cases hl with
    | top hmem hleaf' =>
      rcases List.mem_cons.1 hmem with heq | hmem
      · exact absurd heq.symm (hne leaf)
      · exact ihrest b pa _ [] leaf hok (.top hmem hleaf')
    | inside hmem hc hl' =>
      rename_i sub' c chain'
      rcases List.mem_cons.1 hmem with heq | hmem
      · exact absurd heq.symm (hne c)
      · exact ihrest b pa _ (c :: chain') leaf hok (.inside hmem hc hl')

/-- The auth inherited along a chain is the one of the deepest node that has one. -/
theorem inheritedAuth_eq_deepestAuth (parentAuth : Option Obj) (chain : List Obj) :
    inheritedAuth parentAuth chain = deepestAuth parentAuth chain := by
  induction chain using List.reverseRecOn with
  | nil => rfl
  | append_singleton chain m ih =>
    unfold inheritedAuth at ih ⊢
    rw [List.foldl_append, ih]
    simp only [List.foldl_cons, List.foldl_nil, itemAuth, deepestAuth, List.reverse_append,
      List.reverse_cons, List.reverse_nil, List.nil_append, List.singleton_append,
      List.filterMap_cons]
    cases asObj (lookup "auth".toList m) with
    | none => rfl
    | some a => rfl

theorem itemAuth_inheritedAuth (parentAuth : Option Obj) (chain : List Obj) (leaf : Obj) :
    itemAuth leaf (inheritedAuth parentAuth chain) = deepestAuth parentAuth (chain ++ [leaf]) := by
  rw [← inheritedAuth_eq_deepestAuth]
  simp [inheritedAuth, List.foldl_append]

theorem perform_okEnv (op : FsOp) (log : List FsOp) :
    perform okEnv op log = (log ++ [op], none) := rfl

theorem createHTTPFiles_append (L : Lib) (env : Env) (a b : List JVal) :
    ∀ (basePath : Str) (parentAuth : Option Obj) (log : List FsOp),
      createHTTPFiles L env (a ++ b) basePath parentAuth log =
        andThen (createHTTPFiles L env a basePath parentAuth log)
          (fun log1 => createHTTPFiles L env b basePath parentAuth log1) := by
  refine items_induction (fun a => ∀ (basePath : Str) (parentAuth : Option Obj)
    (log : List FsOp),
      createHTTPFiles L env (a ++ b) basePath parentAuth log =
        andThen (createHTTPFiles L env a basePath parentAuth log)
          (fun log1 => createHTTPFiles L env b basePath parentAuth log1)) ?_ ?_ ?_ ?_ a
  · intro base pa log
    rw [createHTTPFiles_nil, andThen_none]
    rfl
  · intro m rest sub hsub _ ihrest base pa log
    rw [List.cons_append, createHTTPFiles_container L env m _ base pa log sub hsub,
      createHTTPFiles_container L env m _ base pa log sub hsub, andThen_assoc]
    congr 1
    funext log1
    rw [andThen_assoc]
    congr 1
    funext log2
    exact ihrest base pa log2
  · intro m rest hleaf ihrest base pa log
    rw [List.cons_append, createHTTPFiles_leaf L env m _ base pa log hleaf,
      createHTTPFiles_leaf L env m _ base pa log hleaf, andThen_assoc]
    congr 1
    funext log1
    exact ihrest base pa log1
  · intro head rest hne ihrest base pa log
    rw [List.cons_append, createHTTPFiles_skip L env head _ base pa log hne,
      createHTTPFiles_skip L env head _ base pa log hne]
    exact ihrest base pa log

/-- When no file-system call fails, the only error is the one of a missing request. -/
theorem createHTTPFiles_okEnv_error (L : Lib) (items : List JVal) :
    ∀ (basePath : Str) (parentAuth : Option Obj) (log : List FsOp),
      (createHTTPFiles L okEnv items basePath parentAuth log).2 = none ∨
      (createHTTPFiles L okEnv items basePath parentAuth log).2 =
        some .invalidRequestFormat := by
  refine items_induction (fun items => ∀ (basePath : Str) (parentAuth : Option Obj)
    (log : List FsOp),
      (createHTTPFiles L okEnv items basePath parentAuth log).2 = none ∨
      (createHTTPFiles L okEnv items basePath parentAuth log).2 =
        some .invalidRequestFormat) ?_ ?_ ?_ ?_ items
  · intro base pa log
    rw [createHTTPFiles_nil]
    exact Or.inl rfl
  · intro m rest sub hsub ihsub ihrest base pa log
    rw [createHTTPFiles_container L okEnv m rest base pa log sub hsub, perform_okEnv,
      andThen_none]
    rcases hs : createHTTPFiles L okEnv sub (itemPath L base m) (itemAuth m pa)
      (log ++ [.mkdirAll (itemPath L base m)]) with ⟨log2, _ | err⟩
    · rw [hs, andThen_none]
      exact ihrest base pa log2
    · have := ihsub (itemPath L base m) (itemAuth m pa) (log ++ [.mkdirAll (itemPath L base m)])
      rw [hs, andThen_some]
      rw [hs] at this
      exact this
  · intro m rest hleaf ihrest base pa log
    rw [createHTTPFiles_leaf L okEnv m rest base pa log hleaf]
    unfold createHTTPRequestFile
    cases asObj (lookup "request".toList m) with
    | none => exact Or.inr rfl
    | some request =>
      simp only [perform_okEnv, andThen_none]
      exact ihrest base pa _
  · intro head rest hne ihrest base pa log
    rw [createHTTPFiles_skip L okEnv head rest base pa log hne]
    exact ihrest base pa log

theorem headerLines_append (a b : List JVal) :
    headerLines (a ++ b) = headerLines a ++ headerLines b := by
  induction a with
  | nil => rfl
  | cons x xs ih => cases x <;> simp [headerLines, ih]

theorem findToken_first (pre post : List JVal) (entry : Obj) (t : Str)
    (hpre : ∀ e ∈ pre, isTokenEntry e = false)
    (hkey : lookup "key".toList entry = some (.str "token".toList))
    (hval : lookup "value".toList entry = some (.str t)) :
    findToken (pre ++ .obj entry :: post) = some t := by
  induction pre with
  | nil =>
    rw [List.nil_append, findToken, hkey]
    simp only [if_true]
    rw [hval]
  | cons x xs ih =>
    have hx := hpre x (List.mem_cons_self _ _)
    have ih' := ih (fun e he => hpre e (List.mem_cons_of_mem _ he))
    rw [List.cons_append]
    cases x with
    | obj m =>
      rw [findToken]
      simp only [isTokenEntry] at hx
      split
      · rename_i key hk
        rw [hk] at hx
        split
        · rename_i hkt
          split
          · rename_i value hv
            rw [hv] at hx
            simp [hkt] at hx
          · exact ih'
        · exact ih'
      · exact ih'
    | null => rw [findToken]; exact ih'; intro _ hne; cases hne
    | bool b => rw [findToken]; exact ih'; intro _ hne; cases hne
    | num n => rw [findToken]; exact ih'; intro _ hne; cases hne
    | str s => rw [findToken]; exact ih'; intro _ hne; cases hne
    | arr xs => rw [findToken]; exact ih'; intro _ hne; cases hne

/-- C7 (evaluation at the failing input): a collection whose only folder is named `..`
and holds the item of the import example. `formatFileName` leaves the name `..` as it
is, `filepath.Join("http-requests", "..")` is `.`, so the directory created is the
working directory and the file is written to `get_user.http` next to `http-requests`,
not inside it. -/
theorem import_escapes_base_folder (L : Lib) :
    importItems L okEnv [.obj dotDotFolder] =
      ([.mkdirAll ".".toList,
        .writeFile "get_user.http".toList "# Get User\nGET https://x\n\n\n\n".toList], none) ∧
    isUnder "http-requests".toList (FsOp.path (.mkdirAll ".".toList)) = false ∧
    isUnder "http-requests".toList
      (FsOp.path (.writeFile "get_user.http".toList
        "# Get User\nGET https://x\n\n\n\n".toList)) = false := by
  refine ⟨?_, by decide, by decide⟩
  rw [importItems, createHTTPFiles_container L okEnv dotDotFolder [] _ _ _
    [.obj importExampleItem] (by rfl)]
  rw [show itemPath L "http-requests".toList dotDotFolder = ".".toList from rfl,
    perform_okEnv, andThen_none, createHTTPFiles_leaf _ _ _ _ _ _ _ (by rfl)]
  simp only [createHTTPFiles_nil]
  rw [show itemPath L ".".toList importExampleItem = "get_user".toList from rfl]
  rfl

/-- C8: for an item whose `request` map has no `auth` key, and a parent auth of type
`bearer` whose `bearer` list has the entry `{key: "token", value: T}` (no entry before
it being a token entry), `createHTTPRequestFile` writes the text made of the name line,
the method and URL line, the header lines of the request in their order followed by
the line `Authorization: Bearer T`, the blank line and the body: the bearer line is the
last header line and the headers of the request are all kept. -/
theorem inherited_bearer_is_last_header (L : Lib) (env : Env) (filePath : Str)
    (item request auth : Obj) (pre post : List JVal) (entry : Obj) (T : Str)
    (log : List FsOp)
    (hreq : lookup "request".toList item = some (.obj request))
    (hnoauth : lookup "auth".toList request = none)
    (htype : lookup "type".toList auth = some (.str "bearer".toList))
    (hbearer : lookup "bearer".toList auth = some (.arr (pre ++ .obj entry :: post)))
    (hpre : ∀ e ∈ pre, isTokenEntry e = false)
    (hkey : lookup "key".toList entry = some (.str "token".toList))
    (hval : lookup "value".toList entry = some (.str T)) :
    createHTTPRequestFile L env filePath item (some auth) log =
      perform env (.writeFile (filepathJoin [filePath ++ ".http".toList])
        ("# ".toList ++ sprintS L (lookup "name".toList item) ++ "\n".toList ++
          asString (lookup "method".toList request) ++ " ".toList ++
          (extractURL (lookup "url".toList request)).1 ++ "\n".toList ++
          join (headerLines ((asArr (lookup "header".toList request)).getD []) ++
            ["Authorization: Bearer ".toList ++ T]) "\n".toList ++
          "\n\n".toList ++ bodyContent request ++ "\n".toList)) log := by
  have htok : extractBearerToken auth = some T := by
    unfold extractBearerToken
    rw [htype]
    simp only [if_true]
    rw [hbearer]
    exact findToken_first pre post entry T hpre hkey hval
  have hhead : headerLines (headersWithAuth request (some auth)) =
      headerLines ((asArr (lookup "header".toList request)).getD []) ++
        ["Authorization: Bearer ".toList ++ T] := by
    unfold headersWithAuth
    rw [hnoauth]
    simp only [htok]
    rw [headerLines_append]
    rfl
  unfold createHTTPRequestFile
  rw [hreq]
  simp only [asObj, requestContent, hhead]

/-- C8 (witness): a leaf with the header `Accept: application/json` under a parent
auth with token `T`. -/
theorem inherited_bearer_is_last_header_witness :
    createHTTPRequestFile asciiLib okEnv "out/leaf".toList acceptLeaf (some tokenAuth) [] =
      ([.writeFile "out/leaf.http".toList
        "# Leaf\nGET https://x\nAccept: application/json\nAuthorization: Bearer T\n\n\n".toList],
        none) :=
  (inherited_bearer_is_last_header asciiLib okEnv "out/leaf".toList acceptLeaf acceptRequest
    tokenAuth [] [] tokenEntry "T".toList [] (by rfl) (by rfl) (by rfl) (by rfl) (by simp)
    (by rfl) (by rfl)).trans (by rfl)

/-- Evaluation of the nested-auth example. -/
theorem nested_auth_run (L : Lib) :
    importItems L okEnv [.obj groupG1] =
      ([.mkdirAll "http-requests/g1".toList, .mkdirAll "http-requests/g1/g2".toList,
        .writeFile "http-requests/g1/g2/leaf.http".toList
          "# Leaf\nGET https://x\nAuthorization: Bearer T2\n\n\n".toList], none) := by
  rw [importItems, createHTTPFiles_container L okEnv groupG1 [] _ _ _ [.obj groupG2] (by rfl)]
  rw [show itemPath L "http-requests".toList groupG1 = "http-requests/g1".toList from rfl,
    perform_okEnv, andThen_none,
    createHTTPFiles_container L okEnv groupG2 [] _ _ _ [.obj plainLeaf] (by rfl)]
  rw [show itemPath L "http-requests/g1".toList groupG2 = "http-requests/g1/g2".toList from rfl,
    perform_okEnv, andThen_none, createHTTPFiles_leaf _ _ _ _ _ _ _ (by rfl)]
  simp only [createHTTPFiles_nil]
  rw [show itemPath L "http-requests/g1/g2".toList plainLeaf =
    "http-requests/g1/g2/leaf".toList from rfl]
  rfl

/-- C9: when `createHTTPFiles`, called with no parent auth, returns no error, the file
of every leaf of the item tree has been written with the content that
`createHTTPRequestFile` renders from the leaf and the auth descriptor `deepestAuth`: the
`auth` entry of the deepest node, on the path from the top level down to and including
the leaf, whose `auth` entry is a map, and none when no node of the path has one. For
the container `G1` (bearer token `T1`) holding the container `G2` (bearer token `T2`)
holding a leaf without auth, the import writes one file, whose lines include
`Authorization: Bearer T2` and do not include `Authorization: Bearer T1`. -/
theorem nearest_ancestor_auth_wins (L : Lib) :
    (∀ (env : Env) (items : List JVal) (basePath : Str) (log : List FsOp) (chain : List Obj)
      (leaf : Obj),
      (createHTTPFiles L env items basePath none log).2 = none →
      LeafAt items chain leaf →
      ∃ request, asObj (lookup "request".toList leaf) = some request ∧
        FsOp.writeFile
            (filepathJoin [itemPath L (chainPath L basePath chain) leaf ++ ".http".toList])
            (requestContent L leaf request (deepestAuth none (chain ++ [leaf]))) ∈
          (createHTTPFiles L env items basePath none log).1) ∧
    importItems L okEnv [.obj groupG1] =
      ([.mkdirAll "http-requests/g1".toList, .mkdirAll "http-requests/g1/g2".toList,
        .writeFile "http-requests/g1/g2/leaf.http".toList
          "# Leaf\nGET https://x\nAuthorization: Bearer T2\n\n\n".toList], none) ∧
    "Authorization: Bearer T2".toList ∈
      split "# Leaf\nGET https://x\nAuthorization: Bearer T2\n\n\n".toList "\n".toList ∧
    "Authorization: Bearer T1".toList ∉
      split "# Leaf\nGET https://x\nAuthorization: Bearer T2\n\n\n".toList "\n".toList := by
  refine ⟨?_, nested_auth_run L, by decide, by decide⟩
  intro env items basePath log chain leaf hok hleaf
  obtain ⟨request, hr, hin⟩ :=
    createHTTPFiles_leaf_written L env items basePath none log chain leaf hok hleaf
  rw [itemAuth_inheritedAuth] at hin
  exact ⟨request, hr, hin⟩

/-- C9 (witness): the leaf below `G1` and `G2` is written with the auth of `G2`. -/
theorem nearest_ancestor_auth_wins_witness :
    (createHTTPFiles asciiLib okEnv [.obj groupG1] "http-requests".toList none []).2 = none ∧
    LeafAt [.obj groupG1] [groupG1, groupG2] plainLeaf ∧
    deepestAuth none ([groupG1, groupG2] ++ [plainLeaf]) = asObj (some (bearerAuth "T2".toList)) ∧
    ∃ request, asObj (lookup "request".toList plainLeaf) = some request ∧
      FsOp.writeFile
          (filepathJoin [itemPath asciiLib
            (chainPath asciiLib "http-requests".toList [groupG1, groupG2]) plainLeaf ++
            ".http".toList])
          (requestContent asciiLib plainLeaf request
            (deepestAuth none ([groupG1, groupG2] ++ [plainLeaf]))) ∈
        (createHTTPFiles asciiLib okEnv [.obj groupG1] "http-requests".toList none []).1 :=
  have hok : (createHTTPFiles asciiLib okEnv [.obj groupG1] "http-requests".toList none []).2 =
      none := by
    have h := nested_auth_run asciiLib
    rw [importItems] at h
    rw [h]
  have hleaf : LeafAt [.obj groupG1] [groupG1, groupG2] plainLeaf :=
    @LeafAt.inside [.obj groupG1] [.obj groupG2] groupG1 [groupG2] plainLeaf
      (List.mem_singleton.2 rfl) (by rfl)
      (@LeafAt.inside [.obj groupG2] [.obj plainLeaf] groupG2 [] plainLeaf
        (List.mem_singleton.2 rfl) (by rfl) (.top (List.mem_singleton.2 rfl) (by rfl)))
  ⟨hok, hleaf, by rfl,
    (nearest_ancestor_auth_wins asciiLib).1 okEnv [.obj groupG1] "http-requests".toList []
      [groupG1, groupG2] plainLeaf hok hleaf⟩

/-- C10 (counterexample): with a node that has neither an item list nor a request in
front of the item of the import example, the import returns an error. -/
theorem missing_request_is_fatal :
    ¬ ∃ L : Lib,
      (importItems L okEnv [.obj brokenNode, .obj importExampleItem]).2 = none := by
  rintro ⟨L, h⟩
  rw [importItems, createHTTPFiles_leaf _ _ _ _ _ _ _ (by rfl)] at h
  have hrun : createHTTPRequestFile L okEnv (itemPath L "http-requests".toList brokenNode)
      brokenNode (itemAuth brokenNode none) [] = ([], some .invalidRequestFormat) := by
    rfl
  rw [hrun, andThen_some] at h
  cases h

/-- C10 (amended): a node that has neither an item list nor a request map aborts
the import. When such a node is a leaf of the item tree, at any depth, and no file-system
call fails, `createHTTPFiles` returns the error `invalid request format`. When it is an
element of the list itself, the result is, whatever the environment, that of the
elements before it followed by this error: the log holds the calls made for the
elements before the node and nothing else, so no file is written for the node nor for
any element after it. -/
theorem missing_request_aborts_import (L : Lib) (bad : Obj)
    (hitem : asArr (lookup "item".toList bad) = none)
    (hreq : asObj (lookup "request".toList bad) = none) :
    (∀ (items : List JVal) (chain : List Obj) (basePath : Str) (parentAuth : Option Obj)
      (log : List FsOp), LeafAt items chain bad →
      (createHTTPFiles L okEnv items basePath parentAuth log).2 =
        some .invalidRequestFormat) ∧
    (∀ (env : Env) (before after : List JVal) (basePath : Str) (parentAuth : Option Obj)
      (log : List FsOp),
      createHTTPFiles L env (before ++ .obj bad :: after) basePath parentAuth log =
        andThen (createHTTPFiles L env before basePath parentAuth log)
          (fun log1 => (log1, some .invalidRequestFormat))) := by
  constructor
  · intro items chain basePath parentAuth log hleaf
    rcases createHTTPFiles_okEnv_error L items basePath parentAuth log with hnone | herr
    · obtain ⟨request, hr, -⟩ :=
        createHTTPFiles_leaf_written L okEnv items basePath parentAuth log chain bad hnone hleaf
      rw [hreq] at hr
      cases hr
    · exact herr
  · intro env before after basePath parentAuth log
    rw [createHTTPFiles_append]
    congr 1
    funext log1
    rw [createHTTPFiles_leaf L env bad after basePath parentAuth log1 hitem]
    unfold createHTTPRequestFile
    rw [hreq]
    rfl

/-- C10 (witness): the node `{name: "Broken"}`. -/
theorem missing_request_aborts_import_witness :
    asArr (lookup "item".toList brokenNode) = none ∧
    asObj (lookup "request".toList brokenNode) = none ∧
    ((∀ (items : List JVal) (chain : List Obj) (basePath : Str) (parentAuth : Option Obj)
      (log : List FsOp), LeafAt items chain brokenNode →
      (createHTTPFiles asciiLib okEnv items basePath parentAuth log).2 =
        some .invalidRequestFormat) ∧
    (∀ (env : Env) (before after : List JVal) (basePath : Str) (parentAuth : Option Obj)
      (log : List FsOp),
      createHTTPFiles asciiLib env (before ++ .obj brokenNode :: after) basePath parentAuth
          log =
        andThen (createHTTPFiles asciiLib env before basePath parentAuth log)
          (fun log1 => (log1, some .invalidRequestFormat)))) :=
  ⟨by rfl, by rfl, missing_request_aborts_import asciiLib brokenNode (by rfl) (by rfl)⟩

/-! ### Name formatting -/

theorem toNat_upper_of_lower (n : Nat) (h1 : 97 ≤ n) (h2 : n ≤ 122) :
    (Char.ofNat (n - 32)).toNat = n - 32 := by
  interval_cases n <;> rfl

theorem char_eq_of_toNat {r c : Char} (h : r.toNat = c.toNat) : r = c := by
  rw [← Char.ofNat_toNat r, ← Char.ofNat_toNat c, h]

/-- In the ASCII range the facts hold by the code of `toTitle` and `isSeparator`. -/
theorem titleFacts_ascii (L : Lib) (r : Char) (hr : r.toNat ≤ 0x7F) : TitleFacts L r := by
  unfold TitleFacts
  by_cases hlow : 'a'.toNat ≤ r.toNat ∧ r.toNat ≤ 'z'.toNat
  · have hn := toNat_upper_of_lower r.toNat hlow.1 hlow.2
    have h97 : 97 ≤ r.toNat := hlow.1
    have h122 : r.toNat ≤ 122 := hlow.2
    have ht : toTitle L r = Char.ofNat (r.toNat - 32) := by
      simp only [toTitle, hr, hlow, if_true, and_self]
    rw [ht]
    refine ⟨?_, ?_, ?_, ?_⟩
    · have e1 : (Char.ofNat (r.toNat - 32)).toNat ≤ 0x7F := by rw [hn]; omega
      have e2 : ¬ ('a'.toNat ≤ (Char.ofNat (r.toNat - 32)).toNat ∧
          (Char.ofNat (r.toNat - 32)).toNat ≤ 'z'.toNat) := by
        rw [hn]
        show ¬ (97 ≤ r.toNat - 32 ∧ r.toNat - 32 ≤ 122)
        omega
      simp only [toTitle, e1, e2, if_true, if_false]
    · have e1 : (Char.ofNat (r.toNat - 32)).toNat ≤ 0x7F := by rw [hn]; omega
      have a1 : ¬ ('0'.toNat ≤ (Char.ofNat (r.toNat - 32)).toNat ∧
          (Char.ofNat (r.toNat - 32)).toNat ≤ '9'.toNat) := by
        rw [hn]
        show ¬ (48 ≤ r.toNat - 32 ∧ r.toNat - 32 ≤ 57)
        omega
      have a2 : ¬ ('a'.toNat ≤ (Char.ofNat (r.toNat - 32)).toNat ∧
          (Char.ofNat (r.toNat - 32)).toNat ≤ 'z'.toNat) := by
        rw [hn]
        show ¬ (97 ≤ r.toNat - 32 ∧ r.toNat - 32 ≤ 122)
        omega
      have a3 : 'A'.toNat ≤ (Char.ofNat (r.toNat - 32)).toNat ∧
          (Char.ofNat (r.toNat - 32)).toNat ≤ 'Z'.toNat := by
        rw [hn]
        show 65 ≤ r.toNat - 32 ∧ r.toNat - 32 ≤ 90
        omega
      have b1 : ¬ ('0'.toNat ≤ r.toNat ∧ r.toNat ≤ '9'.toNat) := by
        show ¬ (48 ≤ r.toNat ∧ r.toNat ≤ 57)
        omega
      simp only [isSeparator, e1, a1, a2, a3, hr, b1, hlow, if_true, if_false, and_self]
    · intro _ he
      have := congrArg Char.toNat he
      rw [hn] at this
      have : r.toNat - 32 = 95 := this
      omega
    · intro _ he
      have := congrArg Char.toNat he
      rw [hn] at this
      have : r.toNat - 32 = 45 := this
      omega
  · have ht : toTitle L r = r := by
      simp only [toTitle, hr, hlow, if_true, if_false]
    rw [ht]
    exact ⟨ht, rfl, id, id⟩

/-- Above the ASCII range the facts are those assumed of the table. -/
theorem titleFacts_of_stable (L : Lib) (hL : TitleStable L) (r : Char) : TitleFacts L r := by
  by_cases hr : r.toNat ≤ 0x7F
  · exact titleFacts_ascii L r hr
  · have hr' : 0x7F < r.toNat := by omega
    have ht : toTitle L r = L.toTitle r := by
      simp only [toTitle, hr, if_false]
    obtain ⟨h1, h2, h3, h4⟩ := hL r hr'
    unfold TitleFacts
    rw [ht]
    exact ⟨h1, h2, fun _ => h3, fun _ => h4⟩

theorem titleGo_idem (L : Lib) (s : Str) (hf : ∀ r ∈ s, TitleFacts L r) :
    ∀ p p' : Char, isSeparator L p' = isSeparator L p →
      titleGo L p' (titleGo L p s) = titleGo L p s := by
  induction s with
  | nil => intro p p' _; rfl
  | cons r rs ih =>
    intro p p' hp
    obtain ⟨h1, h2, -, -⟩ := hf r (List.mem_cons_self _ _)
    have ih' := ih (fun x hx => hf x (List.mem_cons_of_mem _ hx))
    simp only [titleGo, hp]
    cases hs : isSeparator L p with
    | true =>
      simp only [if_true, h1]
      rw [ih' r (toTitle L r) h2]
    | false =>
      simp only [Bool.false_eq_true, if_false]
      rw [ih' r r rfl]

theorem titleGo_no_mark (L : Lib) (s : Str) (hf : ∀ r ∈ s, TitleFacts L r) :
    ∀ p : Char, (∀ c ∈ s, c ≠ '_' ∧ c ≠ '-') → ∀ c ∈ titleGo L p s, c ≠ '_' ∧ c ≠ '-' := by
  induction s with
  | nil => intro p _ c hc; simp [titleGo] at hc
  | cons r rs ih =>
    intro p hs c hc
    obtain ⟨-, -, h3, h4⟩ := hf r (List.mem_cons_self _ _)
    have hr := hs r (List.mem_cons_self _ _)
    simp only [titleGo, List.mem_cons] at hc
    rcases hc with rfl | hc
    · split
      · exact ⟨h3 hr.1, h4 hr.2⟩
      · exact hr
    · exact ih (fun x hx => hf x (List.mem_cons_of_mem _ hx)) r
        (fun c hc => hs c (List.mem_cons_of_mem _ hc)) c hc

theorem replaceAll_of_not_mem (s : Str) (old new : Char) (h : ∀ c ∈ s, c ≠ old) :
    replaceAll s old new = s := by
  unfold replaceAll
  induction s with
  | nil => rfl
  | cons x xs ih =>
    have hx := h x (List.mem_cons_self _ _)
    simp only [List.map_cons, hx, if_false]
    rw [ih (fun c hc => h c (List.mem_cons_of_mem _ hc))]

theorem replaced_no_mark (s : Str) :
    ∀ c ∈ replaceAll (replaceAll s '_' ' ') '-' ' ', c ≠ '_' ∧ c ≠ '-' := by
  intro c hc
  simp only [replaceAll, List.map_map, List.mem_map, Function.comp] at hc
  obtain ⟨a, -, rfl⟩ := hc
  by_cases h1 : a = '_'
  · subst h1; decide
  · simp only [h1, if_false]
    by_cases h2 : a = '-'
    · subst h2; decide
    · simp only [h2, if_false]
      exact ⟨h1, h2⟩

theorem replaced_facts (L : Lib) (s : Str)
    (h : TitleStable L ∨ ∀ c ∈ s, c.toNat ≤ 0x7F) :
    ∀ r ∈ replaceAll (replaceAll s '_' ' ') '-' ' ', TitleFacts L r := by
  intro r hr
  rcases h with hL | hascii
  · exact titleFacts_of_stable L hL r
  · apply titleFacts_ascii
    simp only [replaceAll, List.map_map, List.mem_map, Function.comp] at hr
    obtain ⟨a, ha, rfl⟩ := hr
    have := hascii a ha
    by_cases h1 : a = '_'
    · subst h1; decide
    · simp only [h1, if_false]
      by_cases h2 : a = '-'
      · subst h2; decide
      · simp only [h2, if_false]
        exact this

/-- C11: `formatGroupName` is idempotent: on every string when the Unicode table of
title case is stable above U+007F (`TitleStable`), and on every ASCII string whatever
the tables are. -/
theorem formatGroupName_idempotent (L : Lib) (s : Str)
    (h : TitleStable L ∨ ∀ c ∈ s, c.toNat ≤ 0x7F) :
    formatGroupName L (formatGroupName L s) = formatGroupName L s := by
  have hf := replaced_facts L s h
  have hno := titleGo_no_mark L _ hf ' ' (replaced_no_mark s)
  have e1 : replaceAll (formatGroupName L s) '_' ' ' = formatGroupName L s :=
    replaceAll_of_not_mem _ _ _ (fun c hc => (hno c hc).1)
  have e2 : replaceAll (formatGroupName L s) '-' ' ' = formatGroupName L s :=
    replaceAll_of_not_mem _ _ _ (fun c hc => (hno c hc).2)
  have e3 : formatGroupName L (formatGroupName L s) = title L (formatGroupName L s) := by
    show title L (replaceAll (replaceAll (formatGroupName L s) '_' ' ') '-' ' ') = _
    rw [e1, e2]
  rw [e3]
  exact titleGo_idem L _ hf ' ' ' ' rfl

theorem asciiLib_titleStable : TitleStable asciiLib := by
  intro r hr
  have ht : asciiLib.toTitle r = r := rfl
  have hr' : ¬ r.toNat ≤ 0x7F := by omega
  rw [ht]
  refine ⟨?_, rfl, ?_, ?_⟩
  · simp only [toTitle, hr', if_false]
    rfl
  · intro he
    rw [he] at hr
    revert hr
    decide
  · intro he
    rw [he] at hr
    revert hr
    decide

/-- C11 (witness): formatting `get_user-list` twice gives `Get User List` as formatting
it once does. -/
theorem formatGroupName_idempotent_witness :
    (TitleStable asciiLib ∨ ∀ c ∈ "get_user-list".toList, c.toNat ≤ 0x7F) ∧
    formatGroupName asciiLib (formatGroupName asciiLib "get_user-list".toList) =
      formatGroupName asciiLib "get_user-list".toList ∧
    formatGroupName asciiLib "get_user-list".toList = "Get User List".toList :=
  ⟨Or.inl asciiLib_titleStable,
    formatGroupName_idempotent asciiLib "get_user-list".toList (Or.inl asciiLib_titleStable),
    by decide⟩

/-! ### Containers are never empty -/

theorem populatedAll_append (a b : List RequestGroup) :
    populatedAll (a ++ b) = (populatedAll a && populatedAll b) := by
  induction a with
  | nil => simp [populatedAll]
  | cons x xs ih => simp [populatedAll, ih, Bool.and_assoc]

theorem fileGroupsOf_ne_nil_of_add {L : Lib} {dirParts : List Str} {groupName : Str}
    {items : List Item} {cur cur' : List RequestGroup}
    (h : addToCollection L cur dirParts groupName items = some cur') :
    cur' ≠ [] ∧ fileGroupsOf cur' ≠ [] := by
  have hp := (addToCollection_fileGroups L dirParts groupName items cur cur' h).length_eq
  have hne : fileGroupsOf cur' ≠ [] := by
    intro he
    rw [he] at hp
    simp at hp
  refine ⟨?_, hne⟩
  intro he
  rw [he] at hne
  exact hne rfl

/-- One call keeps every container populated. -/
theorem addToCollection_populated (L : Lib) (dirParts : List Str) (groupName : Str)
    (items : List Item) (cur cur' : List RequestGroup)
    (h : addToCollection L cur dirParts groupName items = some cur')
    (hcur : populatedAll cur = true) : populatedAll cur' = true := by
  induction dirParts generalizing cur cur' with
  | nil =>
    simp only [addToCollection, Option.some.injEq] at h
    subst h
    rw [populatedAll_append]
    simp [populatedAll, RequestGroup.populated, hcur]
  | cons part rest ih =>
    rw [addToCollection] at h
    split at h
    · rename_i before n sub after hfind
      obtain ⟨hc, -, -⟩ := findGroup_some hfind
      cases hsub : addToCollection L sub rest groupName items with
      | none => simp [hsub] at h
      | some sub' =>
        simp only [hsub, Option.map_some', Option.some.injEq] at h
        subst h
        subst hc
        obtain ⟨hne1, hne2⟩ := fileGroupsOf_ne_nil_of_add hsub
        simp only [populatedAll_append, populatedAll, RequestGroup.populated,
          Bool.and_eq_true, Bool.not_eq_true', List.isEmpty_eq_false] at hcur ⊢
        obtain ⟨hb, ⟨⟨-, hs⟩, ha⟩⟩ := hcur
        exact ⟨hb, ⟨⟨⟨hne1, hne2⟩, ih sub sub' hsub hs⟩, ha⟩⟩
    · simp at h
    · rename_i hfind
      cases hsub : addToCollection L [] rest groupName items with
      | none => simp [hsub] at h
      | some sub' =>
        simp only [hsub, Option.map_some', Option.some.injEq] at h
        subst h
        obtain ⟨hne1, hne2⟩ := fileGroupsOf_ne_nil_of_add hsub
        have hs := ih [] sub' hsub (by simp [populatedAll])
        simp only [populatedAll_append, populatedAll, RequestGroup.populated,
          Bool.and_eq_true, Bool.not_eq_true', List.isEmpty_eq_false, Bool.and_true]
        exact ⟨hcur, ⟨hne1, hne2⟩, hs⟩

theorem addAll_populated (L : Lib) (calls : List Call) (t t' : List RequestGroup)
    (h : addAll L calls t = some t') (ht : populatedAll t = true) :
    populatedAll t' = true := by
  induction calls generalizing t with
  | nil =>
    simp only [addAll, Option.some.injEq] at h
    subst h
    exact ht
  | cons c cs ih =>
    rw [addAll] at h
    cases hc : addToCollection L t c.dirParts c.groupName c.items with
    | none => simp [hc] at h
    | some t1 =>
      simp only [hc] at h
      exact ih t1 h (addToCollection_populated L _ _ _ _ _ hc ht)

/-- C16: after any sequence of calls of `addToCollection` that starts from the empty
item list and completes, every container of the tree, at any depth, has a non-empty
item list and at least one file group among its descendants. -/
theorem no_container_without_files (L : Lib) (calls : List Call) (tree : List RequestGroup)
    (h : addAll L calls [] = some tree) : populatedAll tree = true :=
  addAll_populated L calls [] tree h (by rfl)

/-- C16 (witness): in the tree built by `exampleCalls` the containers `Api` and `V1`
both hold a file group. -/
theorem no_container_without_files_witness :
    addAll asciiLib exampleCalls [] = some exampleTree ∧ populatedAll exampleTree = true :=
  ⟨by rfl, no_container_without_files asciiLib exampleCalls exampleTree (by rfl)⟩

/-! ### Totality of `addToCollection` -/

/-- A call panics only on a file group that clashes with its directory path. -/
theorem addToCollection_none (L : Lib) (dirParts : List Str) (groupName : Str)
    (items : List Item) (cur : List RequestGroup)
    (h : addToCollection L cur dirParts groupName items = none) :
    ∃ f ∈ fileGroupsOf cur, Clashes f (dirParts.map (formatGroupName L)) := by
  induction dirParts generalizing cur with
  | nil => simp [addToCollection] at h
  | cons part rest ih =>
    rw [addToCollection] at h
    split at h
    · rename_i before n sub after hfind
      obtain ⟨hc, hname, -⟩ := findGroup_some hfind
      have hn : n = formatGroupName L part := hname
      cases hsub : addToCollection L sub rest groupName items with
      | some sub' => simp [hsub] at h
      | none =>
        obtain ⟨f, hf, hcl⟩ := ih sub hsub
        refine ⟨(n :: f.1, f.2), ?_, ?_⟩
        · subst hc
          simp only [fileGroupsOf_append, fileGroupsOf, RequestGroup.fileGroups,
            List.mem_append, List.mem_map]
          exact Or.inr (Or.inl ⟨f, hf, rfl⟩)
        · unfold Clashes at hcl ⊢
          obtain ⟨t, ht⟩ := hcl
          refine ⟨t, ?_⟩
          simp only [List.map_cons, List.cons_append, ← hn]
          rw [← ht]
    · rename_i before n its after hfind
      obtain ⟨hc, hname, -⟩ := findGroup_some hfind
      have hn : n = formatGroupName L part := hname
      refine ⟨([], n, its), ?_, ?_⟩
      · subst hc
        simp [fileGroupsOf_append, fileGroupsOf, RequestGroup.fileGroups]
      · unfold Clashes
        refine ⟨rest.map (formatGroupName L), ?_⟩
        simp [hn]
    · rename_i hfind
      cases hsub : addToCollection L [] rest groupName items with
      | some sub' => simp [hsub] at h
      | none =>
        obtain ⟨f, hf, -⟩ := ih [] hsub
        simp [fileGroupsOf] at hf

theorem addAll_total (L : Lib) (calls : List Call) (t : List RequestGroup)
    (h : ∀ f ∈ fileGroupsOf t ++ calls.map (Call.placed L), ∀ c ∈ calls,
      ¬ Clashes f (c.dirParts.map (formatGroupName L))) :
    ∃ t', addAll L calls t = some t' := by
  induction calls generalizing t with
  | nil => exact ⟨t, rfl⟩
  | cons c cs ih =>
    rw [addAll]
    cases hc : addToCollection L t c.dirParts c.groupName c.items with
    | none =>
      obtain ⟨f, hf, hcl⟩ := addToCollection_none L _ _ _ _ hc
      exact absurd hcl (h f (List.mem_append_left _ hf) c (List.mem_cons_self _ _))
    | some t1 =>
      simp only
      apply ih t1
      intro f hf c' hc'
      apply h f ?_ c' (List.mem_cons_of_mem _ hc')
      rcases List.mem_append.1 hf with hf | hf
      · have hp := addToCollection_fileGroups L _ _ _ _ _ hc
        rcases List.mem_cons.1 (hp.subset hf) with he | hf'
        · exact List.mem_append_right _ (by rw [he]; exact List.mem_map.2 ⟨c, List.mem_cons_self _ _, rfl⟩)
        · exact List.mem_append_left _ hf'
      · exact List.mem_append_right _ (by
          rw [List.map_cons]
          exact List.mem_cons_of_mem _ hf)

/-- C19: a sequence of calls of `addToCollection` that starts from the empty item list
and in which no formatted directory segment of a call names a file group among the same
siblings (no call's container path followed by its group name begins the formatted
directory path of a call) completes: no call meets a file group where it looks for a
container, so no type assertion fails, and the result is a tree of groups, each with a
name and an item list. -/
theorem addToCollection_total_without_clash (L : Lib) (calls : List Call)
    (h : ∀ c1 ∈ calls, ∀ c2 ∈ calls,
      ¬ Clashes (c1.placed L) (c2.dirParts.map (formatGroupName L))) :
    ∃ tree : List RequestGroup, addAll L calls [] = some tree := by
  apply addAll_total
  intro f hf c hc
  simp only [fileGroupsOf, List.nil_append, List.mem_map] at hf
  obtain ⟨c1, hc1, rfl⟩ := hf
  exact h c1 hc1 c hc

/-- C19 (witness): the calls of `exampleCalls` have no clash and complete. -/
theorem addToCollection_total_without_clash_witness :
    (∀ c1 ∈ exampleCalls, ∀ c2 ∈ exampleCalls,
      ¬ Clashes (c1.placed asciiLib) (c2.dirParts.map (formatGroupName asciiLib))) ∧
    ∃ tree : List RequestGroup, addAll asciiLib exampleCalls [] = some tree :=
  have h : ∀ c1 ∈ exampleCalls, ∀ c2 ∈ exampleCalls,
      ¬ Clashes (c1.placed asciiLib) (c2.dirParts.map (formatGroupName asciiLib)) := by
    intro c1 h1 c2 h2
    simp only [exampleCalls, List.mem_cons, List.mem_singleton, List.not_mem_nil,
      or_false] at h1 h2
    rcases h1 with rfl | rfl | rfl <;> rcases h2 with rfl | rfl | rfl <;>
      (unfold Clashes; decide)
  ⟨h, addToCollection_total_without_clash asciiLib exampleCalls h⟩

/-! ### File names -/

/-- C20: the names `Get User` and `get_user` differ and have the same formatted file
name; importing two sibling leaves with these names writes both to
`http-requests/get_user.http`, the second write after the first, so that the file ends
with the content of the later leaf. -/
theorem formatFileName_collision_overwrites (L : Lib) :
    "Get User".toList ≠ "get_user".toList ∧
    formatFileName L "Get User".toList = formatFileName L "get_user".toList ∧
    importItems L okEnv [.obj importExampleItem, .obj snakeLeaf] =
      ([.writeFile "http-requests/get_user.http".toList
          "# Get User\nGET https://x\n\n\n\n".toList,
        .writeFile "http-requests/get_user.http".toList
          "# get_user\nPOST https://y\n\n\n\n".toList], none) ∧
    fileAfter
      [.writeFile "http-requests/get_user.http".toList
          "# Get User\nGET https://x\n\n\n\n".toList,
        .writeFile "http-requests/get_user.http".toList
          "# get_user\nPOST https://y\n\n\n\n".toList]
      "http-requests/get_user.http".toList = some "# get_user\nPOST https://y\n\n\n\n".toList := by
  refine ⟨by decide, by rfl, ?_, by decide⟩
  rw [importItems, createHTTPFiles_leaf _ _ _ _ _ _ _ (by rfl)]
  rw [show itemPath L "http-requests".toList importExampleItem =
    "http-requests/get_user".toList from rfl]
  rw [show createHTTPRequestFile L okEnv "http-requests/get_user".toList importExampleItem
      (itemAuth importExampleItem none) [] =
    ([.writeFile "http-requests/get_user.http".toList
      "# Get User\nGET https://x\n\n\n\n".toList], none) from rfl]
  rw [andThen_none, createHTTPFiles_leaf _ _ _ _ _ _ _ (by rfl)]
  simp only [createHTTPFiles_nil]
  rw [show itemPath L "http-requests".toList snakeLeaf =
    "http-requests/get_user".toList from rfl]
  rfl

/-! ### Body rendering -/

theorem formDataContent_eq (fields : List JVal) :
    formDataContent fields = (fields.map fieldText).flatten := by
  induction fields with
  | nil => rfl
  | cons f fs ih =>
    cases f <;> simp [formDataContent, fieldText, ih]

/-- C17 (counterexample): a `formdata` field with an empty key is not rendered as
`: v` and a newline; it is left out. -/
theorem formdata_empty_key_is_omitted :
    bodyContent emptyKeyForm ≠ ": v\n".toList ∧ bodyContent emptyKeyForm = [] := by
  decide

/-- C17 (amended): the body text of `createHTTPRequestFile`. For a body of mode `raw`
it is the `raw` string unchanged. For a body of mode `formdata` it is the
concatenation, in order, of `key: value` and a newline for each field that is a map with
a non-empty string key; the other fields are left out. For any other mode, and when
the request has no body map, it is empty, and the content written ends with the header
section followed by the three newlines of the format. -/
theorem body_rendering_by_mode (L : Lib) :
    (∀ (request body : Obj) (raw : Str),
      lookup "body".toList request = some (.obj body) →
      lookup "mode".toList body = some (.str "raw".toList) →
      lookup "raw".toList body = some (.str raw) →
      bodyContent request = raw) ∧
    (∀ (request body : Obj) (fields : List JVal),
      lookup "body".toList request = some (.obj body) →
      lookup "mode".toList body = some (.str "formdata".toList) →
      lookup "formdata".toList body = some (.arr fields) →
      bodyContent request = (fields.map fieldText).flatten) ∧
    (∀ (item request : Obj) (parentAuth : Option Obj),
      (asObj (lookup "body".toList request) = none ∨
        ∃ body, lookup "body".toList request = some (.obj body) ∧
          lookup "mode".toList body ≠ some (.str "raw".toList) ∧
          lookup "mode".toList body ≠ some (.str "formdata".toList)) →
      bodyContent request = [] ∧
      requestContent L item request parentAuth =
        "# ".toList ++ sprintS L (lookup "name".toList item) ++ "\n".toList ++
          asString (lookup "method".toList request) ++ " ".toList ++
          (extractURL (lookup "url".toList request)).1 ++ "\n".toList ++
          join (headerLines (headersWithAuth request parentAuth)) "\n".toList ++
          "\n\n\n".toList) := by
  refine ⟨?_, ?_, ?_⟩
  · intro request body raw hb hm hr
    simp only [bodyContent, hb, asObj, hm, if_true, hr, asString]
  · intro request body fields hb hm hf
    have hne : ¬ ("formdata".toList = "raw".toList) := by decide
    simp only [bodyContent, hb, asObj, hm, hne, if_false, if_true, hf, asArr, Option.getD_some]
    exact formDataContent_eq fields
  · intro item request parentAuth h
    have hbody : bodyContent request = [] := by
      rcases h with h | ⟨body, hb, h1, h2⟩
      · simp only [bodyContent, h]
      · simp only [bodyContent, hb, asObj]
        split
        · rename_i mode hmode
          rw [hmode] at h1 h2
          have n1 : ¬ mode = "raw".toList := fun e => h1 (by rw [e])
          have n2 : ¬ mode = "formdata".toList := fun e => h2 (by rw [e])
          simp only [n1, n2, if_false]
        · rfl
    refine ⟨hbody, ?_⟩
    simp only [requestContent, hbody, List.append_nil, List.append_assoc]
    rfl

/-- C17 (witness): a `formdata` body with the fields `a=1`, an empty key, and `b=2`. -/
theorem body_rendering_by_mode_witness :
    bodyContent formRequest = "a: 1\nb: 2\n".toList :=
  ((body_rendering_by_mode asciiLib).2.1 formRequest _ _ (by rfl) (by rfl) (by rfl)).trans
    (by decide)

/-! ### Strings: splitting on one character -/

theorem splitGo_single (c : Char) (s acc : Str) :
    splitGo [c] s 0 acc = List.splitOnP.go (fun x => x == c) s acc := by
  induction s generalizing acc with
  | nil => rfl
  | cons x xs ih =>
    rw [splitGo, List.splitOnP.go]
    have hp : List.isPrefixOf [c] (x :: xs) = (x == c) := by
      simp only [List.isPrefixOf, Bool.and_true]
      by_cases h : c = x
      · subst h; simp
      · have h' : ¬ x = c := fun e => h e.symm
        simp [h, h']
    rw [hp]
    by_cases h : (x == c) = true
    · simp only [h, if_true]
      rw [show [c].length - 1 = 0 from rfl, ih]
    · simp only [h, if_false]
      rw [ih]
      simp

/-- Splitting on a one-character separator is `List.splitOn`. -/
theorem split_single (c : Char) (s : Str) : split s [c] = s.splitOn c := by
  unfold split
  rw [splitGo_single]
  rfl

theorem splitOn_append_cons (c : Char) (u v : Str) :
    (u ++ c :: v).splitOn c = u.splitOn c ++ v.splitOn c := by
  unfold List.splitOn
  induction u with
  | nil => simp
  | cons x xs ih =>
    rw [List.cons_append, List.splitOnP_cons, List.splitOnP_cons, ih]
    by_cases h : (x == c) = true
    · simp [h]
    · simp only [h, if_false]
      cases hs : List.splitOnP (fun x => x == c) xs with
      | nil => exact absurd hs (List.splitOnP_ne_nil _ _)
      | cons a as => rfl

theorem splitOn_of_not_mem (c : Char) (s : Str) (h : c ∉ s) : s.splitOn c = [s] := by
  unfold List.splitOn
  apply List.splitOnP_eq_single
  intro x hx hxc
  have : x = c := by simpa using hxc
  exact h (this ▸ hx)

theorem mem_splitOn_of_mem (c x : Char) (u : Str) (hx : x ∈ u) (hne : x ≠ c) :
    ∃ l ∈ u.splitOn c, x ∈ l := by
  unfold List.splitOn
  induction u with
  | nil => simp at hx
  | cons y ys ih =>
    rw [List.splitOnP_cons]
    by_cases h : (y == c) = true
    · have hy : y = c := by simpa using h
      simp only [h, if_true]
      rcases List.mem_cons.1 hx with rfl | hx'
      · exact absurd hy hne
      · obtain ⟨l, hl, hxl⟩ := ih hx'
        exact ⟨l, List.mem_cons_of_mem _ hl, hxl⟩
    · simp only [h, if_false]
      cases hs : List.splitOnP (fun x => x == c) ys with
      | nil => exact absurd hs (List.splitOnP_ne_nil _ _)
      | cons a as =>
        simp only [List.modifyHead_cons]
        rcases List.mem_cons.1 hx with rfl | hx'
        · exact ⟨x :: a, List.mem_cons_self _ _, List.mem_cons_self _ _⟩
        · obtain ⟨l, hl, hxl⟩ := ih hx'
          rw [hs] at hl
          rcases List.mem_cons.1 hl with rfl | hl'
          · exact ⟨y :: l, List.mem_cons_self _ _, List.mem_cons_of_mem _ hxl⟩
          · exact ⟨l, List.mem_cons_of_mem _ hl', hxl⟩

/-! ### Strings: `TrimSpace` -/

theorem trimSpace_eq (s : Str) :
    trimSpace s = List.rdropWhile isSpace (s.dropWhile isSpace) := rfl

theorem rdropWhile_append_of_pos (p : Char → Bool) (l ws : Str) (h : ∀ x ∈ ws, p x = true) :
    List.rdropWhile p (l ++ ws) = List.rdropWhile p l := by
  unfold List.rdropWhile
  rw [List.reverse_append, List.dropWhile_append_of_pos]
  intro a ha
  exact h a (List.mem_reverse.1 ha)

theorem rdropWhile_split (p : Char → Bool) (l : Str) :
    ∃ w, l = List.rdropWhile p l ++ w ∧ ∀ x ∈ w, p x = true := by
  induction l using List.reverseRecOn with
  | nil => exact ⟨[], by simp [List.rdropWhile_nil], by simp⟩
  | append_singleton l' x ih =>
    by_cases hx : p x = true
    · obtain ⟨w, hw, hall⟩ := ih
      refine ⟨w ++ [x], ?_, ?_⟩
      · rw [List.rdropWhile_concat_pos _ _ _ hx, ← List.append_assoc, ← hw]
      · intro y hy
        rcases List.mem_append.1 hy with hy | hy
        · exact hall y hy
        · rw [List.mem_singleton.1 hy]; exact hx
    · exact ⟨[], by rw [List.rdropWhile_concat_neg _ _ _ hx]; simp, by simp⟩

theorem trimSpace_eq_nil_iff (s : Str) : trimSpace s = [] ↔ ∀ x ∈ s, isSpace x = true := by
  rw [trimSpace_eq, List.rdropWhile_eq_nil_iff]
  constructor
  · intro h
    rw [← List.dropWhile_eq_nil_iff]
    cases hd : List.dropWhile isSpace s with
    | nil => rfl
    | cons a as =>
      have h1 := h a (by rw [hd]; exact List.mem_cons_self _ _)
      have h2 := List.head_dropWhile_not isSpace s (by rw [hd]; simp)
      simp only [hd, List.head_cons] at h2
      rw [h1] at h2
      cases h2
  · intro h x hx
    have : List.dropWhile isSpace s = [] := List.dropWhile_eq_nil_iff.2 h
    rw [this] at hx
    cases hx

theorem trimSpace_append_left (ws s : Str) (h : ∀ x ∈ ws, isSpace x = true) :
    trimSpace (ws ++ s) = trimSpace s := by
  rw [trimSpace_eq, trimSpace_eq, List.dropWhile_append_of_pos h]

theorem trimSpace_append_right (s ws : Str) (h : ∀ x ∈ ws, isSpace x = true) :
    trimSpace (s ++ ws) = trimSpace s := by
  rw [trimSpace_eq, trimSpace_eq, List.dropWhile_append]
  cases hd : List.dropWhile isSpace s with
  | nil =>
    simp only [List.isEmpty_nil, if_true]
    rw [List.dropWhile_eq_nil_iff.2 h]
  | cons a as =>
    simp only [List.isEmpty_cons, Bool.false_eq_true, if_false]
    exact rdropWhile_append_of_pos isSpace _ ws h

/-- A string is its trimmed form between two runs of white space. -/
theorem trimSpace_decomp (s : Str) :
    ∃ ws1 ws2, s = ws1 ++ trimSpace s ++ ws2 ∧ (∀ x ∈ ws1, isSpace x = true) ∧
      ∀ x ∈ ws2, isSpace x = true := by
  obtain ⟨w, hw, hall⟩ := rdropWhile_split isSpace (s.dropWhile isSpace)
  refine ⟨s.takeWhile isSpace, w, ?_, ?_, hall⟩
  · rw [trimSpace_eq, List.append_assoc, ← hw, List.takeWhile_append_dropWhile]
  · intro x hx
    exact List.mem_takeWhile_imp hx

/-- A non-empty trimmed string starts and ends with a code point that is not white
space. -/
theorem trimSpace_ends (s : Str) (h : trimSpace s ≠ []) :
    (∃ x rest, trimSpace s = x :: rest ∧ isSpace x = false) ∧
    ∃ init y, trimSpace s = init ++ [y] ∧ isSpace y = false := by
  constructor
  · have hd : List.dropWhile isSpace s ≠ [] := by
      intro he
      apply h
      rw [trimSpace_eq, he]
      rfl
    have h2 := List.head_dropWhile_not isSpace s hd
    obtain ⟨t, ht⟩ := List.rdropWhile_prefix isSpace (l := List.dropWhile isSpace s)
    rw [← trimSpace_eq] at ht
    cases hts : trimSpace s with
    | nil => exact absurd hts h
    | cons x rest =>
      refine ⟨x, rest, rfl, ?_⟩
      have : (List.dropWhile isSpace s).head hd = x := by
        simp only [← ht, hts, List.cons_append, List.head_cons]
      rw [this] at h2
      simpa using h2
  · have h2 := List.rdropWhile_last_not isSpace (List.dropWhile isSpace s)
      (by rw [← trimSpace_eq]; exact h)
    refine ⟨(trimSpace s).dropLast, (trimSpace s).getLast h, ?_, ?_⟩
    · exact (List.dropLast_append_getLast h).symm
    · simpa [trimSpace_eq] using h2

/-- A string that starts and ends with a code point that is not white space is its own
trimmed form, also between two runs of white space. -/
theorem trimSpace_core (ws1 ws2 rest init : Str) (x y : Char)
    (h1 : ∀ c ∈ ws1, isSpace c = true) (h2 : ∀ c ∈ ws2, isSpace c = true)
    (hx : isSpace x = false) (hy : isSpace y = false) (ht : x :: rest = init ++ [y]) :
    trimSpace (ws1 ++ (x :: rest) ++ ws2) = x :: rest := by
  rw [List.append_assoc, trimSpace_append_left _ _ h1, trimSpace_append_right _ _ h2,
    trimSpace_eq, List.dropWhile_cons_of_neg (by simp [hx]), ht,
    List.rdropWhile_concat_neg _ _ _ (by simp [hy])]

/-! ### Blocks of a request file -/

theorem split_newline (s : Str) : split s "\n".toList = s.splitOn '\n' :=
  split_single '\n' s

theorem exists_nonblank_line (u : Str) (x : Char) (hx : x ∈ u) (hs : isSpace x = false) :
    1 ≤ (nonBlankLines u).length := by
  have hne : x ≠ '\n' := by
    intro e
    rw [e] at hs
    revert hs
    decide
  obtain ⟨l, hl, hxl⟩ := mem_splitOn_of_mem '\n' x u hx hne
  have hmem : l ∈ nonBlankLines u := by
    unfold nonBlankLines
    rw [split_newline, List.mem_filter]
    refine ⟨hl, ?_⟩
    have : trimSpace l ≠ [] := by
      intro he
      have := (trimSpace_eq_nil_iff l).1 he x hxl
      rw [this] at hs
      cases hs
    simpa using this
  exact List.length_pos_of_mem hmem

theorem nonBlankLines_append_newline (u v : Str) :
    nonBlankLines (u ++ '\n' :: v) = nonBlankLines u ++ nonBlankLines v := by
  unfold nonBlankLines
  rw [split_newline, split_newline, split_newline, splitOn_append_cons, List.filter_append]

theorem last_of_append_cons {init a b : Str} {y c : Char} (h : init ++ [y] = a ++ c :: b) :
    (b = [] ∧ y = c) ∨ y ∈ b := by
  rcases List.eq_nil_or_concat b with hb | ⟨b', y', hb⟩
  · left
    subst hb
    have h2 : init ++ [y] = a ++ [c] := h
    exact ⟨rfl, by simpa using List.append_inj_right' h2 rfl⟩
  · right
    rw [List.concat_eq_append] at hb
    subst hb
    have h2 : init ++ [y] = (a ++ c :: b') ++ [y'] := by rw [h]; simp
    have h3 : [y] = [y'] := List.append_inj_right' h2 rfl
    simp only [List.cons.injEq, and_true] at h3
    rw [h3]
    simp

/-- A segment with fewer than two non-blank lines is a single line once trimmed. -/
theorem trimmed_single_line (seg : Str) (h : (nonBlankLines seg).length < 2) :
    '\n' ∉ trimSpace seg := by
  intro hmem
  have hne : trimSpace seg ≠ [] := by
    intro e
    rw [e] at hmem
    cases hmem
  obtain ⟨⟨x, rest, hxr, hx⟩, ⟨init, y, hiy, hy⟩⟩ := trimSpace_ends seg hne
  obtain ⟨ws1, ws2, hseg, -, -⟩ := trimSpace_decomp seg
  obtain ⟨a, b, hab⟩ := List.append_of_mem hmem
  have ha : x ∈ a := by
    cases a with
    | nil =>
      rw [hxr] at hab
      simp only [List.nil_append, List.cons.injEq] at hab
      rw [hab.1] at hx
      exact absurd hx (by decide)
    | cons a0 as =>
      rw [hxr] at hab
      simp only [List.cons_append, List.cons.injEq] at hab
      rw [hab.1]
      exact List.mem_cons_self _ _
  have hb : y ∈ b := by
    rw [hiy] at hab
    rcases last_of_append_cons hab with ⟨-, hyc⟩ | hyb
    · rw [hyc] at hy
      exact absurd hy (by decide)
    · exact hyb
  have h1 := exists_nonblank_line (ws1 ++ a) x (List.mem_append_right _ ha) hx
  have h2 := exists_nonblank_line (b ++ ws2) y (List.mem_append_left _ hb) hy
  have hs : seg = (ws1 ++ a) ++ '\n' :: (b ++ ws2) := by
    rw [hseg, hab]
    simp
  rw [hs, nonBlankLines_append_newline, List.length_append] at h
  omega

theorem collectItems_append (a b : List Str) :
    collectItems (a ++ b) = collectItems a ++ collectItems b := by
  induction a with
  | nil => rfl
  | cons s rest ih =>
    simp only [List.cons_append, collectItems]
    split <;> simp [ih]

/-- C12: a segment with fewer than two non-blank lines is reported as an invalid request
and gives no item, wherever it stands among the segments of a file: the items of the
file are those of the segments before it followed by those of the segments after it. -/
theorem short_block_gives_no_item (seg : Str) (h : (nonBlankLines seg).length < 2) :
    processSection seg = .invalidRequestFormat ∧
    ∀ pre post : List Str,
      collectItems (pre ++ seg :: post) = collectItems pre ++ collectItems post := by
  have hone : processSection seg = .invalidRequestFormat := by
    unfold processSection
    rw [split_newline, splitOn_of_not_mem _ _ (trimmed_single_line seg h)]
  refine ⟨hone, ?_⟩
  intro pre post
  rw [collectItems_append, collectItems, hone]

/-- C12 (witness): in `# A\nGET u\n###\n# only a name\n###\n# B\nGET v` the middle
segment has one non-blank line; the file gives the items `A` and `B`. -/
theorem short_block_gives_no_item_witness :
    (nonBlankLines "\n# only a name\n".toList).length < 2 ∧
    processSection "\n# only a name\n".toList = .invalidRequestFormat ∧
    (processHTTPFile "# A\nGET u\n###\n# only a name\n###\n# B\nGET v".toList).map
      (fun it => it.name) = ["A".toList, "B".toList] :=
  ⟨by decide,
    (short_block_gives_no_item "\n# only a name\n".toList (by decide)).1, by decide⟩

theorem not_mem_trimSpace {c : Char} {s : Str} (h : c ∉ s) : c ∉ trimSpace s := by
  obtain ⟨ws1, ws2, hs, -, -⟩ := trimSpace_decomp s
  intro hc
  apply h
  rw [hs]
  exact List.mem_append_left _ (List.mem_append_right _ hc)

/-- The lines of a trimmed block whose first non-blank line is `l` and which has
something else than white space after that line: `l` comes first, and at least one line
follows. -/
theorem block_lines (ws l rest : Str) (hws : ∀ c ∈ ws, isSpace c = true)
    (hl : ∃ x l', l = x :: l' ∧ isSpace x = false) (hnl : '\n' ∉ l)
    (hrest : trimSpace rest ≠ []) :
    ∃ line1 more, split (trimSpace (ws ++ l ++ '\n' :: rest)) "\n".toList =
      l :: line1 :: more := by
  obtain ⟨x, l', hxl, hx⟩ := hl
  obtain ⟨r1, r2, hr, -, hr2⟩ := trimSpace_decomp rest
  obtain ⟨-, ⟨init, y, hiy, hy⟩⟩ := trimSpace_ends rest hrest
  have hcore : trimSpace (ws ++ l ++ '\n' :: rest) = l ++ '\n' :: (r1 ++ trimSpace rest) := by
    have e1 : ws ++ l ++ '\n' :: rest =
        ws ++ (x :: (l' ++ '\n' :: (r1 ++ trimSpace rest))) ++ r2 := by
      conv_lhs => rw [hr]
      rw [hxl]
      simp
    have e2 : x :: (l' ++ '\n' :: (r1 ++ trimSpace rest)) =
        (x :: (l' ++ '\n' :: (r1 ++ init))) ++ [y] := by
      rw [hiy]
      simp
    rw [e1, trimSpace_core ws r2 _ _ x y hws hr2 hx hy e2, hxl]
    simp
  rw [hcore, split_newline, splitOn_append_cons, splitOn_of_not_mem _ _ hnl]
  cases hs : List.splitOn '\n' (r1 ++ trimSpace rest) with
  | nil => exact absurd hs (List.splitOnP_ne_nil _ _)
  | cons line1 more => exact ⟨line1, more, rfl⟩

theorem trimPrefix_append (pre s : Str) : trimPrefix (pre ++ s) pre = s := by
  unfold trimPrefix
  have : pre.isPrefixOf (pre ++ s) = true := by
    rw [List.isPrefixOf_iff_prefix]
    exact List.prefix_append _ _
  simp [this]

/-- C13 (counterexample): a block whose first line does not start with `# ` is not
invalid; it gives an item named by that line. -/
theorem unmarked_name_line_is_accepted :
    processSection "Get User\nGET https://x".toList =
      .item
        { name := "Get User".toList
          request :=
            { method := "GET".toList, url := "https://x".toList, header := [], body := none } } := by
  decide

/-- C13 (amended): the name line is not checked. For a block whose first non-blank line,
without its leading white space, is `l`, an item produced for the block has the name
`l` with a leading `# ` removed if there is one: the name is `N` when `l` is `# `
followed by `N`, and `l` itself when `l` does not start with `# `. -/
theorem name_is_first_line_without_marker (ws l rest : Str) (it : Item)
    (hws : ∀ c ∈ ws, isSpace c = true)
    (hl : ∃ x l', l = x :: l' ∧ isSpace x = false) (hnl : '\n' ∉ l)
    (h : processSection (ws ++ l ++ '\n' :: rest) = .item it) :
    it.name = trimPrefix l "# ".toList ∧
    (∀ N, l = "# ".toList ++ N → it.name = N) ∧
    ("# ".toList.isPrefixOf l = false → it.name = l) := by
  have hname : it.name = trimPrefix l "# ".toList := by
    by_cases hrest : trimSpace rest = []
    · exfalso
      have hall : ∀ c ∈ '\n' :: rest, isSpace c = true := by
        intro c hc
        rcases List.mem_cons.1 hc with rfl | hc
        · decide
        · exact (trimSpace_eq_nil_iff rest).1 hrest c hc
      have ht : trimSpace (ws ++ l ++ '\n' :: rest) = trimSpace l := by
        rw [trimSpace_append_right _ _ hall, trimSpace_append_left _ _ hws]
      unfold processSection at h
      rw [ht, split_newline, splitOn_of_not_mem _ _ (not_mem_trimSpace hnl)] at h
      cases h
    · obtain ⟨line1, more, hlines⟩ := block_lines ws l rest hws hl hnl hrest
      unfold processSection at h
      rw [hlines] at h
      simp only at h
      split at h
      · simp only [SectionResult.item.injEq] at h
        rw [← h]
      · cases h
  refine ⟨hname, ?_, ?_⟩
  · intro N hN
    rw [hname, hN, trimPrefix_append]
  · intro hp
    rw [hname]
    unfold trimPrefix
    rw [hp]
    rfl

/-- C13 (witness): the block `\n# Get User\nGET https://x` gives an item named
`Get User`. -/
theorem name_is_first_line_without_marker_witness :
    processSection ("\n".toList ++ "# Get User".toList ++ '\n' :: "GET https://x".toList) =
      .item
        { name := "Get User".toList
          request :=
            { method := "GET".toList, url := "https://x".toList, header := [], body := none } } ∧
    "Get User".toList = trimPrefix "# Get User".toList "# ".toList :=
  have h : processSection ("\n".toList ++ "# Get User".toList ++ '\n' :: "GET https://x".toList) =
      .item
        { name := "Get User".toList
          request :=
            { method := "GET".toList, url := "https://x".toList, header := [],
              body := none } } := by decide
  ⟨h, (name_is_first_line_without_marker "\n".toList "# Get User".toList
    "GET https://x".toList _ (by decide) ⟨'#', " Get User".toList, rfl, by decide⟩
    (by decide) h).1⟩

/-! ### Strings: cutting at the first separator -/

theorem cut_first (c : Char) (a b : Str) (h : c ∉ a) :
    cut [c] (a ++ c :: b) = some (a, b) := by
  induction a with
  | nil =>
    simp [cut, List.isPrefixOf]
  | cons x xs ih =>
    have hx : ¬ c = x := fun e => h (e ▸ List.mem_cons_self _ _)
    have hxs : c ∉ xs := fun hm => h (List.mem_cons_of_mem _ hm)
    rw [List.cons_append, cut]
    simp [List.isPrefixOf, hx, ih hxs]

theorem cut_none (c : Char) (s : Str) (h : c ∉ s) : cut [c] s = none := by
  induction s with
  | nil => rfl
  | cons x xs ih =>
    have hx : ¬ c = x := fun e => h (e ▸ List.mem_cons_self _ _)
    have hxs : c ∉ xs := fun hm => h (List.mem_cons_of_mem _ hm)
    rw [cut]
    simp [List.isPrefixOf, hx, ih hxs]

theorem exists_first (c : Char) (s : Str) (h : c ∈ s) : ∃ a b, s = a ++ c :: b ∧ c ∉ a := by
  induction s with
  | nil => cases h
  | cons x xs ih =>
    by_cases hx : x = c
    · exact ⟨[], xs, by rw [hx]; rfl, by simp⟩
    · rcases List.mem_cons.1 h with e | hm
      · exact absurd e.symm hx
      · obtain ⟨a, b, hs, ha⟩ := ih hm
        refine ⟨x :: a, b, by rw [hs]; rfl, ?_⟩
        intro hc
        rcases List.mem_cons.1 hc with e | hc
        · exact hx e.symm
        · exact ha hc

theorem takeWhile_first (c : Char) (a b : Str) (h : c ∉ a) :
    (a ++ c :: b).takeWhile (fun x => x ≠ c) = a ∧
    (a ++ c :: b).dropWhile (fun x => x ≠ c) = c :: b := by
  induction a with
  | nil => simp
  | cons x xs ih =>
    have hx : x ≠ c := fun e => h (e ▸ List.mem_cons_self _ _)
    have hxs : c ∉ xs := fun hm => h (List.mem_cons_of_mem _ hm)
    obtain ⟨h1, h2⟩ := ih hxs
    constructor
    · rw [List.cons_append, List.takeWhile_cons_of_pos (by simpa using hx), h1]
    · rw [List.cons_append, List.dropWhile_cons_of_pos (by simpa using hx), h2]

/-! ### The method and URL line -/

/-- C15 (counterexample): with two spaces between method and URL the URL keeps the
second space, and with a tab between them the block gives no item. -/
theorem method_url_split_is_at_one_space :
    processSection "# A\nGET  https://x".toList =
      .item
        { name := "A".toList
          request :=
            { method := "GET".toList, url := " https://x".toList, header := [],
              body := none } } ∧
    processSection "# A\nGET\thttps://x".toList = .invalidURLLine := by
  decide

/-- C15 (amended): the method and URL line is cut at its first space. For every block
whose second line, in the trimmed block, is `M` followed by one space followed by `U`,
where `M` has no space, the block gives an item with method `M` and URL `U`, whatever
`U` starts with; and a block whose second line has no space gives no item. -/
theorem method_url_split_at_first_space (sec l0 line1 : Str) (more : List Str)
    (hlines : split (trimSpace sec) "\n".toList = l0 :: line1 :: more) :
    (∀ M U, line1 = M ++ ' ' :: U → ' ' ∉ M →
      ∃ it, processSection sec = .item it ∧ it.request.method = M ∧ it.request.url = U) ∧
    (' ' ∉ line1 → processSection sec = .invalidURLLine) := by
  constructor
  · intro M U hline hM
    unfold processSection
    rw [hlines]
    simp only
    have hcut : splitN2 line1 " ".toList = [M, U] := by
      unfold splitN2
      rw [hline, show " ".toList = [' '] from rfl, cut_first ' ' M U hM]
    rw [hcut]
    exact ⟨_, rfl, rfl, rfl⟩
  · intro hno
    unfold processSection
    rw [hlines]
    simp only
    have hcut : splitN2 line1 " ".toList = [line1] := by
      unfold splitN2
      rw [show " ".toList = [' '] from rfl, cut_none ' ' line1 hno]
    rw [hcut]

/-- C15 (witness): the block `# A\nGET https://x y` has method `GET` and URL
`https://x y`. -/
theorem method_url_split_at_first_space_witness :
    split (trimSpace "# A\nGET https://x y".toList) "\n".toList =
      ["# A".toList, "GET".toList ++ ' ' :: "https://x y".toList] ∧
    ∃ it, processSection "# A\nGET https://x y".toList = .item it ∧
      it.request.method = "GET".toList ∧ it.request.url = "https://x y".toList :=
  ⟨by decide,
    (method_url_split_at_first_space "# A\nGET https://x y".toList "# A".toList
      ("GET".toList ++ ' ' :: "https://x y".toList) [] (by decide)).1
      "GET".toList "https://x y".toList rfl (by decide)⟩

/-! ### Header lines -/

theorem splitN2_trimmed_line (l : Str) :
    (':' ∈ l → ∃ k v, splitN2 (trimSpace l) ":".toList = [k, v] ∧
      headerOfLine l = some ⟨trimSpace k, trimSpace v⟩) ∧
    (':' ∉ l → splitN2 (trimSpace l) ":".toList = [trimSpace l] ∧ headerOfLine l = none) := by
  obtain ⟨w1, w2, hl, hw1, hw2⟩ := trimSpace_decomp l
  have hc1 : ':' ∉ w1 := fun h => absurd (hw1 _ h) (by decide)
  have hc2 : ':' ∉ w2 := fun h => absurd (hw2 _ h) (by decide)
  constructor
  · intro hmem
    have hmt : ':' ∈ trimSpace l := by
      rw [hl] at hmem
      simp only [List.mem_append] at hmem
      rcases hmem with (h | h) | h
      · exact absurd h hc1
      · exact h
      · exact absurd h hc2
    obtain ⟨a, b, hab, ha⟩ := exists_first ':' (trimSpace l) hmt
    refine ⟨a, b, ?_, ?_⟩
    · unfold splitN2
      rw [hab, show ":".toList = [':'] from rfl, cut_first ':' a b ha]
    · have hl2 : l = (w1 ++ a) ++ ':' :: (b ++ w2) := by
        conv_lhs => rw [hl, hab]
        simp
      have hna : ':' ∉ w1 ++ a := by
        intro h
        rcases List.mem_append.1 h with h | h
        · exact hc1 h
        · exact ha h
      obtain ⟨t1, t2⟩ := takeWhile_first ':' (w1 ++ a) (b ++ w2) hna
      unfold headerOfLine
      rw [if_pos hmem]
      conv_lhs => rw [hl2]
      rw [t1, t2, List.drop_one, List.tail_cons, trimSpace_append_left _ _ hw1,
        trimSpace_append_right _ _ hw2]
  · intro hno
    constructor
    · unfold splitN2
      rw [show ":".toList = [':'] from rfl, cut_none ':' _ (not_mem_trimSpace hno)]
    · unfold headerOfLine
      rw [if_neg hno]

theorem loop_headers (lines : List Str) (h : ∀ l ∈ lines, trimSpace l ≠ []) :
    ∀ headers : List Header,
      processHeadersAndBodyLoop lines false headers [] =
        (headers ++ lines.filterMap headerOfLine, []) := by
  induction lines with
  | nil => intro headers; simp [processHeadersAndBodyLoop]
  | cons l rest ih =>
    intro headers
    have hl := h l (List.mem_cons_self _ _)
    have ih' := ih (fun x hx => h x (List.mem_cons_of_mem _ hx))
    rw [processHeadersAndBodyLoop]
    simp only [hl, if_false, Bool.false_eq_true]
    by_cases hc : ':' ∈ l
    · obtain ⟨k, v, hsplit, hh⟩ := (splitN2_trimmed_line l).1 hc
      rw [hsplit]
      simp only
      rw [ih', List.filterMap_cons, hh]
      simp
    · obtain ⟨hsplit, hh⟩ := (splitN2_trimmed_line l).2 hc
      rw [hsplit]
      simp only
      rw [ih', List.filterMap_cons, hh]

/-- C14: for every list of lines none of which is blank, `processHeadersAndBody` returns
an empty body and, in the order of the lines, one header for each line with a colon:
its key is the text before the first colon and its value the text after it, each
trimmed; the lines without a colon give nothing. -/
theorem headers_of_nonblank_lines (lines : List Str) (h : ∀ l ∈ lines, trimSpace l ≠ []) :
    processHeadersAndBody lines = (lines.filterMap headerOfLine, []) ∧
    (∀ l ∈ lines, ':' ∉ l → headerOfLine l = none) ∧
    (∀ l ∈ lines, ':' ∈ l → headerOfLine l =
      some ⟨trimSpace (l.takeWhile (fun x => x ≠ ':')),
        trimSpace ((l.dropWhile (fun x => x ≠ ':')).drop 1)⟩) := by
  refine ⟨?_, ?_, ?_⟩
  · unfold processHeadersAndBody
    rw [loop_headers lines h []]
    rfl
  · intro l _ hno
    unfold headerOfLine
    rw [if_neg hno]
  · intro l _ hc
    unfold headerOfLine
    rw [if_pos hc]

/-- C14 (witness): the lines ` Accept : a:b `, `no colon here` and `X-Id: 7`. -/
theorem headers_of_nonblank_lines_witness :
    (∀ l ∈ [" Accept : a:b ".toList, "no colon here".toList, "X-Id: 7".toList],
      trimSpace l ≠ []) ∧
    processHeadersAndBody
        [" Accept : a:b ".toList, "no colon here".toList, "X-Id: 7".toList] =
      ([⟨"Accept".toList, "a:b".toList⟩, ⟨"X-Id".toList, "7".toList⟩], []) :=
  have h : ∀ l ∈ [" Accept : a:b ".toList, "no colon here".toList, "X-Id: 7".toList],
      trimSpace l ≠ [] := by decide
  ⟨h, (headers_of_nonblank_lines _ h).1.trans (by decide)⟩

/-! ### Strings: text without the block delimiter -/

theorem infix_of_append_cons {sep a b : Str} {x : Char} (hx : x ∉ sep)
    (h : sep <:+: a ++ x :: b) : sep <:+: a ∨ sep <:+: b := by
  obtain ⟨s, t, hst⟩ := h
  rw [List.append_assoc, List.append_eq_append_iff] at hst
  rcases hst with ⟨a', ha, h2⟩ | ⟨c', hs, h2⟩
  · rw [List.append_eq_append_iff] at h2
    rcases h2 with ⟨e, he, -⟩ | ⟨c', hsep, h3⟩
    · left
      exact ⟨s, e, by rw [ha, he, List.append_assoc]⟩
    · cases c' with
      | nil =>
        left
        rw [List.append_nil] at hsep
        exact ⟨s, [], by rw [ha, hsep, List.append_nil]⟩
      | cons y c'' =>
        exfalso
        simp only [List.cons_append, List.cons.injEq] at h3
        apply hx
        rw [hsep, h3.1]
        exact List.mem_append_right _ (List.mem_cons_self _ _)
  · cases c' with
    | nil =>
      simp only [List.nil_append] at h2
      cases sep with
      | nil => left; exact List.nil_infix
      | cons y sep' =>
        exfalso
        simp only [List.cons_append, List.cons.injEq] at h2
        apply hx
        rw [h2.1]
        exact List.mem_cons_self _ _
    | cons y c'' =>
      right
      simp only [List.cons_append, List.cons.injEq] at h2
      exact ⟨c'', t, by rw [h2.2, List.append_assoc]⟩

theorem splitGo_no_occurrence (sep : Str) (s : Str) :
    ∀ cur : Str, ¬ sep <:+: s → splitGo sep s 0 cur = [cur.reverse ++ s] := by
  induction s with
  | nil => intro cur _; simp [splitGo]
  | cons c cs ih =>
    intro cur hno
    rw [splitGo]
    have hp : sep.isPrefixOf (c :: cs) = false := by
      cases hpre : sep.isPrefixOf (c :: cs) with
      | false => rfl
      | true =>
        exfalso
        exact hno (List.isPrefixOf_iff_prefix.1 hpre).isInfix
    have htail : ¬ sep <:+: cs := by
      intro h
      apply hno
      obtain ⟨s, t, hst⟩ := h
      exact ⟨c :: s, t, by rw [← hst]; rfl⟩
    simp only [hp, Bool.false_eq_true, if_false]
    rw [ih (c :: cur) htail]
    simp

/-- A text in which the separator does not occur is a single piece. -/
theorem split_no_occurrence (sep s : Str) (h : ¬ sep <:+: s) :
    split s sep = [s] := by
  unfold split
  rw [splitGo_no_occurrence sep s [] h]
  rfl

/-! ### Strings: trimming joined lines -/

theorem intercalate_concat (sep : Str) (pre : List Str) (last : Str) :
    sep.intercalate (pre ++ [last]) = (pre.map (fun l => l ++ sep)).flatten ++ last := by
  induction pre with
  | nil => simp [List.intercalate]
  | cons a as ih =>
    cases as with
    | nil => simp [List.intercalate]
    | cons b bs =>
      have : sep.intercalate (a :: (b :: bs ++ [last])) =
          a ++ sep ++ sep.intercalate (b :: bs ++ [last]) := by
        simp [List.intercalate]
      rw [List.cons_append, this, ih]
      simp

theorem rdropWhile_lines (pre : List Str) (last ws : Str) (x : Char) (hx : x ∈ last)
    (hxs : isSpace x = false) (hws : ∀ c ∈ ws, isSpace c = true) :
    List.rdropWhile isSpace ("\n".toList.intercalate (pre ++ [last]) ++ ws) =
      "\n".toList.intercalate (pre ++ [List.rdropWhile isSpace last]) := by
  rw [rdropWhile_append_of_pos _ _ _ hws, intercalate_concat, intercalate_concat]
  obtain ⟨w, hw, hall⟩ := rdropWhile_split isSpace last
  have hne : List.rdropWhile isSpace last ≠ [] := by
    intro he
    have := (List.rdropWhile_eq_nil_iff).1 he x hx
    rw [this] at hxs
    cases hxs
  have hlast := List.rdropWhile_last_not isSpace last hne
  conv_lhs => rw [hw, ← List.append_assoc, rdropWhile_append_of_pos _ _ _ hall]
  rw [← List.dropLast_append_getLast hne, ← List.append_assoc,
    List.rdropWhile_concat_neg _ _ _ hlast]

theorem trimSpace_rdropWhile (s : Str) : trimSpace (List.rdropWhile isSpace s) = trimSpace s := by
  obtain ⟨w, hw, hall⟩ := rdropWhile_split isSpace s
  conv_rhs => rw [hw]
  rw [trimSpace_append_right _ _ hall]

theorem loop_congr (l1 l2 : List Str) (h : l1.map trimSpace = l2.map trimSpace) :
    ∀ (ended : Bool) (headers : List Header) (bodyLines : List Str),
      processHeadersAndBodyLoop l1 ended headers bodyLines =
        processHeadersAndBodyLoop l2 ended headers bodyLines := by
  induction l1 generalizing l2 with
  | nil =>
    cases l2 with
    | nil => intros; rfl
    | cons b bs => simp at h
  | cons a as ih =>
    cases l2 with
    | nil => simp at h
    | cons b bs =>
      simp only [List.map_cons, List.cons.injEq] at h
      intro ended headers bodyLines
      rw [processHeadersAndBodyLoop, processHeadersAndBodyLoop, h.1]
      simp only [ih bs h.2]

/-! ### The writer followed by the parser -/

theorem headerLines_headerObj (hdrs : List Header) :
    headerLines (hdrs.map headerObj) = hdrs.map headerLine := by
  induction hdrs with
  | nil => rfl
  | cons h hs ih =>
    simp only [List.map_cons, headerObj, headerLines, ih]
    rfl

/-- The text written for a plain item. -/
theorem requestContent_plain (L : Lib) (name method url : Str) (hdrs : List Header) :
    requestContent L (plainItem name method url hdrs) (plainRequest method url hdrs) none =
      "# ".toList ++ name ++ "\n".toList ++ method ++ " ".toList ++ url ++ "\n".toList ++
        join (hdrs.map headerLine) "\n".toList ++ "\n\n\n".toList := by
  have h1 : sprintS L (lookup "name".toList (plainItem name method url hdrs)) = name := rfl
  have h2 : asString (lookup "method".toList (plainRequest method url hdrs)) = method := rfl
  have h3 : (extractURL (lookup "url".toList (plainRequest method url hdrs))).1 = url := rfl
  have h4 : headersWithAuth (plainRequest method url hdrs) none = hdrs.map headerObj := rfl
  have h5 : bodyContent (plainRequest method url hdrs) = [] := rfl
  unfold requestContent
  rw [h1, h2, h3, h4, h5, headerLines_headerObj]
  simp [List.append_assoc]

theorem noSep_join {a b : Str} (x : Char) (hx : x ≠ '#') (ha : ¬ "###".toList <:+: a)
    (hb : ¬ "###".toList <:+: b) : ¬ "###".toList <:+: a ++ x :: b := by
  intro h
  have hx' : x ∉ "###".toList := by
    intro hm
    simp at hm
    exact hx hm
  rcases infix_of_append_cons hx' h with h | h
  · exact ha h
  · exact hb h

theorem noSep_short (s : Str) (h : s.length < 3) : ¬ "###".toList <:+: s := by
  intro hi
  have := hi.length_le
  have h3 : "###".toList.length = 3 := rfl
  omega

theorem noSep_headerLine (h : Header) (hk : ¬ "###".toList <:+: h.key)
    (hv : ¬ "###".toList <:+: h.value) : ¬ "###".toList <:+: headerLine h := by
  have e : headerLine h = h.key ++ ':' :: ([] ++ ' ' :: h.value) := by
    unfold headerLine
    simp
  rw [e]
  exact noSep_join ':' (by decide) hk (noSep_join ' ' (by decide) (noSep_short [] (by decide)) hv)

theorem noSep_lines (ls : List Str) (h : ∀ l ∈ ls, ¬ "###".toList <:+: l) :
    ¬ "###".toList <:+: join ls "\n".toList := by
  unfold join
  induction ls with
  | nil => exact noSep_short [] (by decide)
  | cons a as ih =>
    cases as with
    | nil =>
      simpa [List.intercalate] using h a (List.mem_cons_self _ _)
    | cons b bs =>
      have e : "\n".toList.intercalate (a :: b :: bs) =
          a ++ '\n' :: "\n".toList.intercalate (b :: bs) := by
        simp [List.intercalate]
      rw [e]
      exact noSep_join '\n' (by decide) (h a (List.mem_cons_self _ _))
        (ih (fun l hl => h l (List.mem_cons_of_mem _ hl)))

theorem not_mem_rdropWhile {c : Char} {s : Str} (h : c ∉ s) :
    c ∉ List.rdropWhile isSpace s := by
  intro hc
  exact h ((List.rdropWhile_prefix isSpace s).subset hc)

theorem headerOfLine_headerLine (h : Header) (hk : trimSpace h.key = h.key)
    (hv : trimSpace h.value = h.value) (hc : ':' ∉ h.key) :
    headerOfLine (headerLine h) = some h := by
  have e : headerLine h = h.key ++ ':' :: (' ' :: h.value) := by
    unfold headerLine
    simp
  obtain ⟨t1, t2⟩ := takeWhile_first ':' h.key (' ' :: h.value) hc
  unfold headerOfLine
  rw [e, if_pos (by simp), t1, t2, List.drop_one, List.tail_cons, hk,
    show (' ' :: h.value) = [' '] ++ h.value from rfl,
    trimSpace_append_left [' '] h.value (by decide), hv]

theorem headerLine_nonblank (h : Header) : trimSpace (headerLine h) ≠ [] := by
  intro he
  have := (trimSpace_eq_nil_iff _).1 he ':' (by unfold headerLine; simp)
  revert this
  decide

theorem filterMap_headerLines (hdrs : List Header)
    (hh : ∀ h ∈ hdrs, trimSpace h.key = h.key ∧ trimSpace h.value = h.value ∧ ':' ∉ h.key) :
    (hdrs.map headerLine).filterMap headerOfLine = hdrs := by
  induction hdrs with
  | nil => rfl
  | cons h hs ih =>
    obtain ⟨h1, h2, h3⟩ := hh h (List.mem_cons_self _ _)
    rw [List.map_cons, List.filterMap_cons, headerOfLine_headerLine h h1 h2 h3]
    simp only
    rw [ih (fun x hx => hh x (List.mem_cons_of_mem _ hx))]

/-- The header lines of a plain item, the last one possibly trimmed on the right, are
parsed back into the headers, with an empty body. -/
theorem parse_headerLines (hs : List Header) (h : Header)
    (hh : ∀ x ∈ hs ++ [h], trimSpace x.key = x.key ∧ trimSpace x.value = x.value ∧
      ':' ∉ x.key) :
    processHeadersAndBody (hs.map headerLine ++ [List.rdropWhile isSpace (headerLine h)]) =
      (hs ++ [h], []) := by
  have hc : (hs.map headerLine ++ [List.rdropWhile isSpace (headerLine h)]).map trimSpace =
      ((hs ++ [h]).map headerLine).map trimSpace := by
    simp [trimSpace_rdropWhile]
  unfold processHeadersAndBody
  rw [loop_congr _ _ hc]
  have hnb : ∀ l ∈ (hs ++ [h]).map headerLine, trimSpace l ≠ [] := by
    intro l hl
    obtain ⟨x, -, rfl⟩ := List.mem_map.1 hl
    exact headerLine_nonblank x
  rw [loop_headers _ hnb [], filterMap_headerLines _ hh]
  rfl

theorem dropWhile_hash (s : Str) : List.dropWhile isSpace ('#' :: s) = '#' :: s :=
  List.dropWhile_cons_of_neg (by decide)

/-- The lines of the trimmed text of a block written as lines followed by white space,
when the text starts with `#` and the last line has a code point that is not white
space: the same lines, the last one trimmed on the right. -/
theorem lines_of_written_block (text : Str) (pre : List Str) (last ws : Str) (x : Char)
    (htext : '#' :: text = "\n".toList.intercalate (pre ++ [last]) ++ ws)
    (hx : x ∈ last) (hxs : isSpace x = false) (hws : ∀ c ∈ ws, isSpace c = true)
    (hpre : ∀ l ∈ pre, '\n' ∉ l) (hlast : '\n' ∉ last) :
    split (trimSpace ('#' :: text)) "\n".toList = pre ++ [List.rdropWhile isSpace last] := by
  rw [trimSpace_eq, dropWhile_hash, htext, rdropWhile_lines pre last ws x hx hxs hws,
    split_newline]
  apply List.splitOn_intercalate
  · intro l hl
    rcases List.mem_append.1 hl with hl | hl
    · exact hpre l hl
    · rw [List.mem_singleton.1 hl]
      exact not_mem_rdropWhile hlast
  · simp

theorem parse_written_block_no_headers (name method url : Str)
    (hname : Plain name) (hmethod : Plain method) (hurl : Plain url)
    (hsp : ' ' ∉ method) (hu : url ≠ []) :
    processSection ("# ".toList ++ name ++ "\n".toList ++ method ++ " ".toList ++ url ++
        "\n".toList ++ join ([].map headerLine) "\n".toList ++ "\n\n\n".toList) =
      .item ⟨name, ⟨method, url, [], none⟩⟩ := by
  obtain ⟨-, ⟨init, y, hiy, hy⟩⟩ := trimSpace_ends url (by rw [hurl.2.1]; exact hu)
  rw [hurl.2.1] at hiy
  have htext : "# ".toList ++ name ++ "\n".toList ++ method ++ " ".toList ++ url ++
      "\n".toList ++ join ([].map headerLine) "\n".toList ++ "\n\n\n".toList =
      '#' :: (' ' :: name ++ "\n".toList ++ method ++ " ".toList ++ url ++ "\n\n\n\n".toList) := by
    simp [join, List.intercalate]
  have hlines : '#' :: (' ' :: name ++ "\n".toList ++ method ++ " ".toList ++ url ++
      "\n\n\n\n".toList) =
      "\n".toList.intercalate (["# ".toList ++ name] ++ [method ++ ' ' :: url]) ++
        "\n\n\n\n".toList := by
    simp [List.intercalate]
  have hB : List.rdropWhile isSpace (method ++ ' ' :: url) = method ++ ' ' :: url := by
    rw [hiy, show method ++ ' ' :: (init ++ [y]) = (method ++ ' ' :: init) ++ [y] by simp]
    exact List.rdropWhile_concat_neg _ _ _ (by simp [hy])
  have hsplit := lines_of_written_block _ ["# ".toList ++ name] (method ++ ' ' :: url)
    "\n\n\n\n".toList y hlines (by rw [hiy]; simp) hy (by decide)
    (by
      intro l hl
      rw [List.mem_singleton.1 hl]
      intro hm
      rcases List.mem_append.1 hm with hm | hm
      · revert hm; decide
      · exact hname.1 hm)
    (by
      intro hm
      rcases List.mem_append.1 hm with hm | hm
      · exact hmethod.1 hm
      · rcases List.mem_cons.1 hm with hm | hm
        · revert hm; decide
        · exact hurl.1 hm)
  rw [htext]
  unfold processSection
  rw [hsplit, hB]
  simp only [List.singleton_append]
  have hcut : splitN2 (method ++ ' ' :: url) " ".toList = [method, url] := by
    unfold splitN2
    rw [show " ".toList = [' '] from rfl, cut_first ' ' method url hsp]
  rw [hcut]
  simp only
  rw [trimPrefix_append]
  rfl

theorem parse_written_block_headers (name method url : Str) (hs : List Header) (h : Header)
    (hname : Plain name) (hmethod : Plain method) (hurl : Plain url)
    (hsp : ' ' ∉ method)
    (hh : ∀ x ∈ hs ++ [h], Plain x.key ∧ Plain x.value ∧ ':' ∉ x.key) :
    processSection ("# ".toList ++ name ++ "\n".toList ++ method ++ " ".toList ++ url ++
        "\n".toList ++ join ((hs ++ [h]).map headerLine) "\n".toList ++ "\n\n\n".toList) =
      .item ⟨name, ⟨method, url, hs ++ [h], none⟩⟩ := by
  have htext : "# ".toList ++ name ++ "\n".toList ++ method ++ " ".toList ++ url ++
      "\n".toList ++ join ((hs ++ [h]).map headerLine) "\n".toList ++ "\n\n\n".toList =
      '#' :: (' ' :: name ++ "\n".toList ++ method ++ " ".toList ++ url ++
        "\n".toList ++ join ((hs ++ [h]).map headerLine) "\n".toList ++ "\n\n\n".toList) := by
    simp
  have hlines : '#' :: (' ' :: name ++ "\n".toList ++ method ++ " ".toList ++ url ++
      "\n".toList ++ join ((hs ++ [h]).map headerLine) "\n".toList ++ "\n\n\n".toList) =
      "\n".toList.intercalate
        (("# ".toList ++ name) :: (method ++ ' ' :: url) :: hs.map headerLine ++
          [headerLine h]) ++ "\n\n\n".toList := by
    unfold join
    rw [List.map_append, List.map_singleton, intercalate_concat, intercalate_concat]
    simp
  have hnl : ∀ x ∈ hs ++ [h], '\n' ∉ headerLine x := by
    intro x hx hm
    obtain ⟨hk, hv, -⟩ := hh x hx
    unfold headerLine at hm
    simp only [List.mem_append] at hm
    rcases hm with (hm | hm) | hm
    · exact hk.1 hm
    · revert hm; decide
    · exact hv.1 hm
  have hsplit := lines_of_written_block _
    (("# ".toList ++ name) :: (method ++ ' ' :: url) :: hs.map headerLine) (headerLine h)
    "\n\n\n".toList ':' hlines (by unfold headerLine; simp) (by decide) (by decide)
    (by
      intro l hl
      rcases List.mem_cons.1 hl with rfl | hl
      · intro hm
        rcases List.mem_append.1 hm with hm | hm
        · revert hm; decide
        · exact hname.1 hm
      · rcases List.mem_cons.1 hl with rfl | hl
        · intro hm
          rcases List.mem_append.1 hm with hm | hm
          · exact hmethod.1 hm
          · rcases List.mem_cons.1 hm with hm | hm
            · revert hm; decide
            · exact hurl.1 hm
        · obtain ⟨x, hx, rfl⟩ := List.mem_map.1 hl
          exact hnl x (List.mem_append_left _ hx))
    (hnl h (by simp))
  rw [htext]
  unfold processSection
  rw [hsplit]
  simp only [List.cons_append]
  have hcut : splitN2 (method ++ ' ' :: url) " ".toList = [method, url] := by
    unfold splitN2
    rw [show " ".toList = [' '] from rfl, cut_first ' ' method url hsp]
  rw [hcut]
  simp only
  rw [trimPrefix_append, parse_headerLines hs h
    (fun x hx => ⟨(hh x hx).1.2.1, (hh x hx).2.1.2.1, (hh x hx).2.2⟩)]
  rfl

theorem noSep_written_block (name method url : Str) (hdrs : List Header)
    (hname : Plain name) (hmethod : Plain method) (hurl : Plain url)
    (hh : ∀ x ∈ hdrs, Plain x.key ∧ Plain x.value ∧ ':' ∉ x.key) :
    ¬ "###".toList <:+: "# ".toList ++ name ++ "\n".toList ++ method ++ " ".toList ++ url ++
      "\n".toList ++ join (hdrs.map headerLine) "\n".toList ++ "\n\n\n".toList := by
  have e : "# ".toList ++ name ++ "\n".toList ++ method ++ " ".toList ++ url ++
      "\n".toList ++ join (hdrs.map headerLine) "\n".toList ++ "\n\n\n".toList =
      ['#'] ++ ' ' :: (name ++ '\n' :: (method ++ ' ' :: (url ++ '\n' ::
        (join (hdrs.map headerLine) "\n".toList ++ '\n' :: ([] ++ '\n' :: ([] ++ '\n' :: [])))))) := by
    simp
  rw [e]
  have hlines : ¬ "###".toList <:+: join (hdrs.map headerLine) "\n".toList := by
    apply noSep_lines
    intro l hl
    obtain ⟨x, hx, rfl⟩ := List.mem_map.1 hl
    exact noSep_headerLine x (hh x hx).1.2.2 (hh x hx).2.1.2.2
  have hnil : ¬ "###".toList <:+: ([] : Str) := noSep_short [] (by decide)
  exact noSep_join ' ' (by decide) (noSep_short _ (by decide))
    (noSep_join '\n' (by decide) hname.2.2
      (noSep_join ' ' (by decide) hmethod.2.2
        (noSep_join '\n' (by decide) hurl.2.2
          (noSep_join '\n' (by decide) hlines
            (noSep_join '\n' (by decide) hnil (noSep_join '\n' (by decide) hnil hnil))))))

/-- C18: for a name, a method, a URL and headers that are free of newlines, of leading
and trailing white space and of `###`, with no space in the method, a non-empty URL
and no colon in the keys, the text that `createHTTPRequestFile` writes for the item
`{name, request: {method, url: {raw: url}, header: [...]}}`, without body and without
parent auth, is parsed by `processHTTPFile` into exactly one item, with that name,
method and URL, the same headers in the same order, and no body. (That the method and
the keys are not empty is not needed.) -/
theorem parser_inverts_writer (L : Lib) (env : Env) (filePath : Str) (log : List FsOp)
    (name method url : Str) (hdrs : List Header)
    (hname : Plain name) (hmethod : Plain method) (hurl : Plain url)
    (hsp : ' ' ∉ method) (hu : url ≠ [])
    (hh : ∀ x ∈ hdrs, Plain x.key ∧ Plain x.value ∧ ':' ∉ x.key) :
    createHTTPRequestFile L env filePath (plainItem name method url hdrs) none log =
      perform env (.writeFile (filepathJoin [filePath ++ ".http".toList])
        (requestContent L (plainItem name method url hdrs) (plainRequest method url hdrs)
          none)) log ∧
    processHTTPFile
        (requestContent L (plainItem name method url hdrs) (plainRequest method url hdrs)
          none) =
      [{ name := name
         request := { method := method, url := url, header := hdrs, body := none } }] := by
  refine ⟨rfl, ?_⟩
  rw [requestContent_plain]
  unfold processHTTPFile
  rw [split_no_occurrence _ _ (noSep_written_block name method url hdrs hname hmethod hurl hh)]
  rw [collectItems]
  rcases List.eq_nil_or_concat hdrs with he | ⟨hs, h, he⟩
  · subst he
    rw [parse_written_block_no_headers name method url hname hmethod hurl hsp hu]
    rfl
  · rw [List.concat_eq_append] at he
    subst he
    rw [parse_written_block_headers name method url hs h hname hmethod hurl hsp hh]
    rfl

/-- C18 (witness): the item `Get User` with the headers `Accept: application/json` and
`X-Empty:`. -/
theorem parser_inverts_writer_witness :
    processHTTPFile
        (requestContent asciiLib
          (plainItem "Get User".toList "GET".toList "https://api.example.com/users/1".toList
            [⟨"Accept".toList, "application/json".toList⟩, ⟨"X-Empty".toList, []⟩])
          (plainRequest "GET".toList "https://api.example.com/users/1".toList
            [⟨"Accept".toList, "application/json".toList⟩, ⟨"X-Empty".toList, []⟩]) none) =
      [{ name := "Get User".toList
         request :=
           { method := "GET".toList, url := "https://api.example.com/users/1".toList,
             header := [⟨"Accept".toList, "application/json".toList⟩, ⟨"X-Empty".toList, []⟩],
             body := none } }] :=
  (parser_inverts_writer asciiLib okEnv "out".toList [] "Get User".toList "GET".toList
    "https://api.example.com/users/1".toList
    [⟨"Accept".toList, "application/json".toList⟩, ⟨"X-Empty".toList, []⟩]
    (by unfold Plain; decide) (by unfold Plain; decide) (by unfold Plain; decide)
    (by decide) (by decide) (by unfold Plain; decide)).2

end Http2Postman
